import Mathlib

set_option linter.unusedSectionVars false
set_option linter.unusedVariables false

/-!
Verification of the cycle-frustration analysis core of `find-frustration`.

The Go program reads a weighted graph (an Ising/QUBO instance), builds a
spanning tree with union-find, extracts one fundamental cycle per non-tree
edge, optionally closes the basic cycle set under edge-set symmetric
difference (Gibbs' algorithm), classifies every cycle as frustrated or not,
and tallies per-vertex / per-edge / per-cycle statistics.

This file gives a shallow embedding of that core.  Vertex names (Go
`string`) are modelled by an arbitrary linearly ordered type `V`; `float64`
weights are modelled by `ℚ` (the program only compares weights, takes
absolute values and tests signs, so the embedding is exact); Go maps are
modelled by association lists, with map lookup returning the zero value for
a missing key exactly as in Go.
-/

namespace FindFrustration

open List

variable {V : Type} [LinearOrder V]

/-- A weighted graph: a vertex-weight map and an edge-weight map, as in the
Go `Graph` struct (`Vs map[string]float64`, `Es map[[2]string]float64`). -/
structure Graph (V : Type) where
  Vs : List (V × ℚ)
  Es : List ((V × V) × ℚ)

/-- Canonical ordering of an edge's endpoints: the Go sources repeatedly do
`if v1 > v2 { v1, v2 = v2, v1 }` before using a pair as a map key. -/
def canonPair (u v : V) : V × V := if u > v then (v, u) else (u, v)

/-- Weight of a vertex, `0` when the vertex is absent (Go map default). -/
def Graph.vWeight (g : Graph V) (v : V) : ℚ :=
  ((g.Vs.find? fun q => q.1 = v).map Prod.snd).getD 0

/-- Weight of a (canonical) edge, `0` when the edge is absent (Go map
default). -/
def Graph.eWeight (g : Graph V) (e : V × V) : ℚ :=
  ((g.Es.find? fun q => q.1 = e).map Prod.snd).getD 0

/-- The list of consecutive vertex pairs of a path, wraparound included:
the Go loops `for i, u := range p { v := p[(i+1)%np] ... }`. -/
def cyclePairs (p : List V) : List (V × V) := p.zip (p.rotate 1)

/-- Per-edge classification from `isFrustrated`'s loop body: canonicalize
the pair, look up the coupler strength `cs` and the external fields; if both
external fields strictly dominate `|cs|` the verdict is "antiferromagnetic"
exactly for strictly opposite field signs, otherwise exactly for `cs > 0`. -/
def Graph.afmEdge (g : Graph V) (uv : V × V) : Bool :=
  let c := canonPair uv.1 uv.2
  let cs := g.eWeight c
  let ef0 := g.vWeight c.1
  let ef1 := g.vWeight c.2
  if |ef0| > |cs| ∧ |ef1| > |cs| then
    decide ((ef0 > 0 ∧ ef1 < 0) ∨ (ef0 < 0 ∧ ef1 > 0))
  else
    decide (cs > 0)

/-- `Graph.isFrustrated`: a cycle (in path form) is frustrated iff it has an
odd number of antiferromagnetic couplings (`afm&1 == 1` in the Go source). -/
def Graph.isFrustrated (g : Graph V) (p : List V) : Bool :=
  ((cyclePairs p).countP fun uv => g.afmEdge uv) % 2 == 1

/-- The specification's wording of the antiferromagnetic rule (§4.5 of the
spec): with `cs` the weight of the canonical edge `{u,v}` (0 if absent) and
`e_u`, `e_v` the vertex weights, the pair is antiferromagnetic exactly when:
if `|e_u| > |cs|` and `|e_v| > |cs|` then `e_u` and `e_v` have strictly
opposite signs, and otherwise `cs > 0`. -/
def antiferroSpec (g : Graph V) (u v : V) : Prop :=
  let cs := g.eWeight (canonPair u v)
  let eu := g.vWeight u
  let ev := g.vWeight v
  if |eu| > |cs| ∧ |ev| > |cs| then
    (0 < eu ∧ ev < 0) ∨ (eu < 0 ∧ 0 < ev)
  else
    0 < cs

theorem afmEdge_iff_antiferroSpec (g : Graph V) (u v : V) :
    g.afmEdge (u, v) = true ↔ antiferroSpec g u v := by
  rcases le_or_lt u v with h | h
  · have hc : canonPair u v = (u, v) := by
      unfold canonPair
      simp [not_lt.mpr h]
    simp only [Graph.afmEdge, antiferroSpec, hc]
    split <;> simp
  · have hc : canonPair u v = (v, u) := by
      unfold canonPair
      simp [h]
    simp only [Graph.afmEdge, antiferroSpec, hc]
    by_cases hdom : |g.vWeight u| > |g.eWeight (v, u)| ∧ |g.vWeight v| > |g.eWeight (v, u)|
    · rw [if_pos hdom, if_pos (and_comm.mp hdom)]
      constructor
      · intro hd
        have := of_decide_eq_true hd
        tauto
      · intro hd
        apply decide_eq_true
        tauto
    · rw [if_neg hdom, if_neg (fun hx => hdom (and_comm.mp hx))]
      simp

/-- C1: along a cycle in path form (consecutive pairs, wraparound included),
`isFrustrated` classifies a pair `(u,v)` as antiferromagnetic exactly as the
specification's dominance rule states, and the cycle is declared frustrated
iff the number of antiferromagnetic pairs along it is odd. -/
theorem c1_isFrustrated_rule (g : Graph V) (p : List V) :
    (∀ uv ∈ cyclePairs p, (g.afmEdge uv = true ↔ antiferroSpec g uv.1 uv.2)) ∧
      (g.isFrustrated p = true ↔
        Odd ((cyclePairs p).countP fun uv => g.afmEdge uv)) := by
  constructor
  · intro uv _
    rcases uv with ⟨u, v⟩
    exact afmEdge_iff_antiferroSpec g u v
  · unfold Graph.isFrustrated
    rw [Nat.odd_iff]
    simp

theorem canonPair_swap (u v : V) : canonPair v u = canonPair u v := by
  unfold canonPair
  rcases lt_trichotomy u v with h | h | h
  · rw [if_pos h, if_neg (not_lt.mpr h.le)]
  · simp [h]
  · rw [if_neg (not_lt.mpr h.le), if_pos h]

theorem afmEdge_swap (g : Graph V) (uv : V × V) :
    g.afmEdge uv.swap = g.afmEdge uv := by
  rcases uv with ⟨u, v⟩
  simp only [Graph.afmEdge, Prod.swap_prod_mk, canonPair_swap]

theorem zip_eq_zipWith_mk {α β : Type} (a : List α) (b : List β) :
    a.zip b = List.zipWith Prod.mk a b := rfl

theorem cyclePairs_rotate (p : List V) (k : ℕ) :
    cyclePairs (p.rotate k) = (cyclePairs p).rotate k := by
  unfold cyclePairs
  rw [zip_eq_zipWith_mk, zip_eq_zipWith_mk, List.rotate_rotate, Nat.add_comm k 1,
    ← List.rotate_rotate,
    ← List.zipWith_rotate_distrib Prod.mk p (p.rotate 1) k (by simp)]

theorem zip_reverse {α β : Type} :
    ∀ (a : List α) (b : List β), a.length = b.length →
      a.reverse.zip b.reverse = (a.zip b).reverse := by
  intro a
  induction a with
  | nil => intro b h; simp
  | cons x xs ih =>
    intro b h
    cases b with
    | nil => simp at h
    | cons y ys =>
      simp only [List.length_cons, Nat.succ_inj] at h
      simp only [List.reverse_cons]
      rw [List.zip_append (by simp [h]), ih ys h]
      simp

theorem cyclePairs_reverse_perm (p : List V) :
    cyclePairs p.reverse ~ (cyclePairs p).map Prod.swap := by
  rcases p with - | ⟨x, t⟩
  · simp [cyclePairs]
  rcases t with - | ⟨y, t⟩
  · simp [cyclePairs]
  set q : List V := x :: y :: t with hq
  have hlen : 2 ≤ q.length := by simp [hq]
  have h1 : (1 : ℕ) % q.length = 1 := Nat.mod_eq_of_lt (by omega)
  have hrr : q.reverse.rotate 1 = (q.rotate (q.length - 1)).reverse := by
    rw [List.rotate_reverse, h1]
  have hzip : cyclePairs q.reverse = (q.zip (q.rotate (q.length - 1))).reverse := by
    unfold cyclePairs
    rw [hrr, zip_reverse q (q.rotate (q.length - 1)) (by simp)]
  have hswap : q.zip (q.rotate (q.length - 1)) =
      ((q.rotate (q.length - 1)).zip q).map Prod.swap := by
    rw [List.zip_swap]
  have hback : (q.rotate (q.length - 1)).zip q = cyclePairs (q.rotate (q.length - 1)) := by
    unfold cyclePairs
    rw [List.rotate_rotate]
    have : q.length - 1 + 1 = q.length := by omega
    rw [this, List.rotate_length]
  calc cyclePairs q.reverse
      = ((cyclePairs (q.rotate (q.length - 1))).map Prod.swap).reverse := by
        rw [hzip, hswap, hback]
    _ ~ (cyclePairs (q.rotate (q.length - 1))).map Prod.swap := (List.reverse_perm _)
    _ = ((cyclePairs q).rotate (q.length - 1)).map Prod.swap := by rw [cyclePairs_rotate]
    _ ~ (cyclePairs q).map Prod.swap := ((cyclePairs q).rotate_perm _).map _

/-- C9: the frustration verdict does not depend on the traversal direction
of the cycle: `isFrustrated` returns the same answer on the reversed path. -/
theorem c9_isFrustrated_reverse (g : Graph V) (p : List V) :
    g.isFrustrated p.reverse = g.isFrustrated p := by
  unfold Graph.isFrustrated
  have hcount : (cyclePairs p.reverse).countP (fun uv => g.afmEdge uv) =
      (cyclePairs p).countP (fun uv => g.afmEdge uv) := by
    rw [(cyclePairs_reverse_perm p).countP_eq (fun uv => g.afmEdge uv), List.countP_map]
    apply List.countP_congr
    intro uv _
    simp only [Function.comp_apply, afmEdge_swap g uv]
  rw [hcount]

/-- C10: the frustration verdict does not depend on the starting vertex of
the cyclic traversal: `isFrustrated` returns the same answer on any rotation
of the path (the wraparound pair contributes the same canonical edge as an
interior pair). -/
theorem c10_isFrustrated_rotate (g : Graph V) (p : List V) (k : ℕ) :
    g.isFrustrated (p.rotate k) = g.isFrustrated p := by
  unfold Graph.isFrustrated
  rw [cyclePairs_rotate, ((cyclePairs p).rotate_perm k).countP_eq (fun uv => g.afmEdge uv)]

/-! ### Spanning tree construction (union-find partition) -/

/-- The vertex names of the graph (the keys of the Go map `g.Vs`). -/
def Graph.vertexList (g : Graph V) : List V := g.Vs.map Prod.fst

/-- The edge names of the graph (the keys of the Go map `g.Es`). -/
def Graph.edgeKeys (g : Graph V) : List (V × V) := g.Es.map Prod.fst

/-- The class of `u` in a union-find partition.  The union-find structure of
the external `disjoint` library is modelled at its contract level: the state
is the current partition of the vertices into disjoint classes. -/
def findClass (part : List (List V)) (u : V) : List V :=
  (part.find? fun c => decide (u ∈ c)).getD []

/-- `u.Find() == v.Find()` of the `disjoint` library: same representative,
i.e. membership in the same class. -/
def sameSet (part : List (List V)) (u v : V) : Bool := v ∈ findClass part u

/-- `disjoint.Union`: merge the classes of `u` and of `v`. -/
def unionClass (part : List (List V)) (u v : V) : List (List V) :=
  (findClass part u ++ findClass part v) ::
    part.filter fun c => decide ¬(u ∈ c ∨ v ∈ c)

/-- One iteration of `spanningTree`'s edge loop: an edge whose endpoints are
already in the same set is appended to the non-tree list, otherwise the two
sets are united and the edge is appended to the tree list.  The state is
`(partition, tEdges, ntEdges)`. -/
def stStep (st : List (List V) × List (V × V) × List (V × V)) (e : V × V) :
    List (List V) × List (V × V) × List (V × V) :=
  if sameSet st.1 e.1 e.2 then (st.1, st.2.1, st.2.2 ++ [e])
  else (unionClass st.1 e.1 e.2, st.2.1 ++ [e], st.2.2)

/-- `Graph.spanningTree`: place each vertex in its own set, then classify
every edge in turn; returns `(tree edges, non-tree edges)`. -/
def Graph.spanningTree (g : Graph V) : List (V × V) × List (V × V) :=
  (g.edgeKeys.foldl stStep (g.vertexList.map fun v => [v], [], [])).2

/-- All partners of `v` over an edge list, in edge order (an edge `(a,b)`
makes `b` a neighbor of `a` and `a` a neighbor of `b`). -/
def partners (es : List (V × V)) (v : V) : List V :=
  es.flatMap fun e => (if e.1 = v then [e.2] else []) ++ (if e.2 = v then [e.1] else [])

/-- `Graph.neighbors`: the set of vertices directly touching `v` through the
given edge list (the Go code builds a map of sets; set semantics is modelled
by `dedup`). -/
def neighborsOf (es : List (V × V)) (v : V) : List V := (partners es v).dedup

/-- The recursive depth-first search of `Graph.findPath`, with the shared
mutable `visited` set threaded explicitly and a fuel parameter standing for
the (finite) recursion depth of the Go closure.  The `for m := range ns[s]`
loop is a fold whose state `(found, visited)` passes through unchanged once
a path has been found (the Go early return); on a failed recursive search
`m` is deleted from `visited` again. -/
def dfs (ns : V → List V) : ℕ → List V → V → V → Option (List V) × List V
  | 0, visited, _, _ => (none, visited)
  | fuel + 1, visited, s, d =>
    if d ∈ ns s then (some [d], visited)
    else
      (ns s).foldl
        (fun st m =>
          match st with
          | (some path, vis2) => (some path, vis2)
          | (none, vis2) =>
            if m ∈ vis2 then (none, vis2)
            else
              match dfs ns fuel (m :: vis2) m d with
              | (some path, vis3) => (some (path ++ [m]), vis3)
              | (none, vis3) => (none, vis3.erase m))
        (none, visited)

/-- `Graph.findPath`: depth-first search from destination to source over the
tree adjacency (the result comes back in reverse), then append `d`. -/
def Graph.findPath (g : Graph V) (ns : V → List V) (s d : V) : List V :=
  ((dfs ns (g.Vs.length + 1) [d] d s).1.getD []) ++ [d]

/-- `Graph.baseCyclePaths`: one basic cycle per non-tree edge, each the
unique tree path between the edge's endpoints. -/
def Graph.baseCyclePaths (g : Graph V) : List (List V) :=
  let st := g.spanningTree
  st.2.map fun nt => g.findPath (neighborsOf st.1) nt.1 nt.2

/-! ### Cycle/edge codec -/

/-- `Graph.pathToEdges`: one canonical edge per consecutive pair of the
cyclic vertex sequence, wraparound included.  (The Go method ignores its
receiver.) -/
def Graph.pathToEdges (_g : Graph V) (c : List V) : List (V × V) :=
  (cyclePairs c).map fun uv => canonPair uv.1 uv.2

/-- Lookup in the adjacency map built by `edgesToPath` (`near[a]`, as an
option so that a missing key is observable). -/
def nearLookup (near : List (V × List V)) (a : V) : Option (List V) :=
  (near.find? fun q => decide (q.1 = a)).map Prod.snd

/-- `delete(near, a)` on the adjacency map. -/
def nearErase (near : List (V × List V)) (a : V) : List (V × List V) :=
  near.filter fun q => decide ¬q.1 = a

/-- Record `b` as a neighbor of `a` in the adjacency map, appending to the
existing neighbor slice or creating a one-element slice. -/
def nearAdd (near : List (V × List V)) (a b : V) : List (V × List V) :=
  if (nearLookup near a).isSome then
    near.map fun q => if q.1 = a then (q.1, q.2 ++ [b]) else q
  else near ++ [(a, [b])]

/-- The adjacency map of `edgesToPath`: each edge makes each endpoint a
neighbor of the other, in edge-list order. -/
def buildNear (es : List (V × V)) : List (V × List V) :=
  es.foldl (fun n e => nearAdd (nearAdd n e.1 e.2) e.2 e.1) []

theorem nearErase_length_lt (near : List (V × List V)) (a : V)
    (h : (nearLookup near a).isSome) : (nearErase near a).length < near.length := by
  unfold nearErase
  rw [List.length_filter_lt_length_iff_exists]
  unfold nearLookup at h
  obtain ⟨q, hq⟩ : ∃ q, near.find? (fun q => decide (q.1 = a)) = some q := by
    cases hf : near.find? fun q => decide (q.1 = a)
    · rw [hf] at h
      simp at h
    · exact ⟨_, rfl⟩
  have hmem := List.mem_of_find?_eq_some hq
  have hpa := List.find?_some hq
  exact ⟨q, hmem, by simpa using of_decide_eq_true hpa⟩

/-- The vertex-chain loop of `edgesToPath` (`for len(near) > 1 { ... }`),
with the partially built path carried in reverse (its head is the Go
`p[len(p)-1]`).  Go behaviors that panic (an out-of-range index into the
neighbor slice of an already-deleted vertex) are modelled as `none`.  The
loop always deletes one key per iteration, so a fuel of one more than the
map size stands for the loop's unbounded form. -/
def walk (fuel : ℕ) (near : List (V × List V)) (rp : List V) : Option (List V) :=
  match fuel with
  | 0 => none
  | fuel + 1 =>
    if near.length ≤ 1 then some rp.reverse
    else
      match rp with
      | [] => none
      | last :: _ =>
        match nearLookup near last with
        | none => none
        | some abuts =>
          match abuts with
          | [] => none
          | a :: rest =>
            if (nearLookup (nearErase near last) a).isSome then
              walk fuel (nearErase near last) (a :: rp)
            else
              match rest with
              | [] => none
              | b :: _ => walk fuel (nearErase near last) (b :: rp)

/-- `Graph.edgesToPath`: build the adjacency map, start from the minimum
vertex name and repeatedly step to the not-yet-visited neighbor.  The Go
original panics on an empty edge list (`es[0]`), modelled as `none`.  (The
Go method ignores its receiver.) -/
def Graph.edgesToPath (_g : Graph V) (es : List (V × V)) : Option (List V) :=
  match es with
  | [] => none
  | e0 :: _ =>
    let minV := es.foldl (fun m e => min (min m e.1) e.2) e0.1
    walk ((buildNear es).length + 1) (buildNear es) [minV]

/-! ### Elementary cycles (Gibbs' algorithm) -/

/-- Insert every element of `xs` into the set-as-list `base` (the model of
`mapset` union: duplicates collapse, membership is what matters). -/
def listInsertAll {α : Type} [DecidableEq α] (base : List α) (xs : List α) : List α :=
  xs.foldl (fun acc x => acc.insert x) base

/-- `mapset.SymmetricDifference`. -/
def symmDiffF (s t : Finset (V × V)) : Finset (V × V) := (s \ t) ∪ (t \ s)

/-- One iteration of the `for i` loop of `elementaryCycles`: split the
symmetric differences of the candidates in `q` with `phiI` into `r`
(intersecting) and `rs` (disjoint), move every proper superset of another
`r` element from `r` to `rs`, then fold `r` and `phiI` into `s` and `r`,
`rs`, `phiI` into `q`.  State is `(s, q)`; cycle edge sets are `Finset`s
(the inner `mapset`s) and set collections are lists with insertion dedup
(the outer `mapset`s). -/
def gibbsStep (sq : List (Finset (V × V)) × List (Finset (V × V)))
    (phiI : Finset (V × V)) : List (Finset (V × V)) × List (Finset (V × V)) :=
  let r0 := listInsertAll []
    ((sq.2.filter fun t => decide ¬(t ∩ phiI).card = 0).map fun t => symmDiffF t phiI)
  let rs0 := listInsertAll []
    ((sq.2.filter fun t => decide ((t ∩ phiI).card = 0)).map fun t => symmDiffF t phiI)
  let move := r0.filter fun v => decide (∃ u ∈ r0, u ⊂ v)
  let r := r0.filter fun v => decide (v ∉ move)
  let rs := listInsertAll rs0 move
  ((listInsertAll sq.1 r).insert phiI, (listInsertAll (listInsertAll sq.2 r) rs).insert phiI)

/-- `Graph.elementaryCycles`: convert the basic cycles to edge sets, seed
`s = q = {phi 0}`, then fold `gibbsStep` over the remaining basic cycles and
return `s`.  The Go original indexes `phi[0]` and so panics on an empty
input, modelled as the empty collection.  (The Go method ignores its
receiver.) -/
def Graph.elementaryCycles (_g : Graph V) (bcs : List (List (V × V))) :
    List (Finset (V × V)) :=
  match bcs.map fun c => c.toFinset with
  | [] => []
  | phi0 :: rest => (rest.foldl gibbsStep ([phi0], [phi0])).1

/-! ### Report model

The statistics writers emit tagged text lines.  Text formatting mechanics are
out of scope (spec §1); a line is modelled by its tag and payload.  The
floating-point ratio printed by each summary line is a function of the two
counts carried here, so it is not modelled separately. -/

/-- One output line of the report, by tag: `FV`, `NFV`, `#FV`, `FE`, `NFE`,
`#FE`, `FC`, `NFC`, `#FC`, `#BCS`, `#ECS`. -/
inductive OutLine (V : Type) where
  | fv : ℕ → ℤ → V → OutLine V
  | nfv : ℕ → ℤ → V → OutLine V
  | fvSummary : ℕ → ℕ → OutLine V
  | fe : ℕ → ℤ → V → V → OutLine V
  | nfe : ℕ → ℤ → V → V → OutLine V
  | feSummary : ℕ → ℕ → OutLine V
  | fc : List V → OutLine V
  | nfc : List V → OutLine V
  | fcSummary : ℕ → ℕ → OutLine V
  | bcsCount : ℕ → OutLine V
  | ecsCount : ℕ → OutLine V
deriving DecidableEq

/-- The `fVerts` tally of `outputVertices`: how many times `v` occurs across
the frustrated cycles (`0` for a vertex that is not a key of the map). -/
def fVertTally (ps : List (List V)) (isFrust : List Bool) (v : V) : ℕ :=
  (((ps.zip isFrust).filter fun c => c.2).map fun c => c.1.count v).sum

/-- The `nfVerts` tally of `outputVertices`. -/
def nfVertTally (ps : List (List V)) (isFrust : List Bool) (v : V) : ℕ :=
  (((ps.zip isFrust).filter fun c => !c.2).map fun c => c.1.count v).sum

/-- The key set of the `fVerts` map (iteration order of a Go map is
unspecified; one order is fixed here). -/
def fVertKeys (ps : List (List V)) (isFrust : List Bool) : List V :=
  (((ps.zip isFrust).filter fun c => c.2).map Prod.fst).flatten.dedup

/-- The key set of the `nfVerts` map. -/
def nfVertKeys (ps : List (List V)) (isFrust : List Bool) : List V :=
  (((ps.zip isFrust).filter fun c => !c.2).map Prod.fst).flatten.dedup

/-- `outputVertices`: an `FV` line per vertex occurring more often in
frustrated than in non-frustrated cycles, an `NFV` line per vertex occurring
at least as often in non-frustrated cycles, and the `#FV` summary counting
the `FV` lines against the total vertex count of the graph. -/
def outputVertices (g : Graph V) (ps : List (List V)) (isFrust : List Bool) :
    List (OutLine V) :=
  let f := fVertTally ps isFrust
  let nf := nfVertTally ps isFrust
  let fvs := (fVertKeys ps isFrust).filter fun v => decide (nf v < f v)
  let nfvs := (nfVertKeys ps isFrust).filter fun v => decide (f v ≤ nf v)
  (fvs.map fun v => OutLine.fv (f v) ((f v : ℤ) - (nf v : ℤ)) v) ++
    (nfvs.map fun v => OutLine.nfv (nf v) ((nf v : ℤ) - (f v : ℤ)) v) ++
    [OutLine.fvSummary fvs.length g.Vs.length]

/-- The `fEdges` tally of `outputEdges`: how many times the canonical edge
`e` is traversed across the frustrated cycles. -/
def fEdgeTally (ps : List (List V)) (isFrust : List Bool) (e : V × V) : ℕ :=
  (((ps.zip isFrust).filter fun c => c.2).map fun c =>
    (cyclePairs c.1).countP fun uv => decide (canonPair uv.1 uv.2 = e)).sum

/-- The `nfEdges` tally of `outputEdges`. -/
def nfEdgeTally (ps : List (List V)) (isFrust : List Bool) (e : V × V) : ℕ :=
  (((ps.zip isFrust).filter fun c => !c.2).map fun c =>
    (cyclePairs c.1).countP fun uv => decide (canonPair uv.1 uv.2 = e)).sum

/-- The key set of the `fEdges` map. -/
def fEdgeKeys (ps : List (List V)) (isFrust : List Bool) : List (V × V) :=
  (((ps.zip isFrust).filter fun c => c.2).map fun c =>
    (cyclePairs c.1).map fun uv => canonPair uv.1 uv.2).flatten.dedup

/-- The key set of the `nfEdges` map. -/
def nfEdgeKeys (ps : List (List V)) (isFrust : List Bool) : List (V × V) :=
  (((ps.zip isFrust).filter fun c => !c.2).map fun c =>
    (cyclePairs c.1).map fun uv => canonPair uv.1 uv.2).flatten.dedup

/-- `outputEdges`: the per-edge analogue of `outputVertices`. -/
def outputEdges (g : Graph V) (ps : List (List V)) (isFrust : List Bool) :
    List (OutLine V) :=
  let f := fEdgeTally ps isFrust
  let nf := nfEdgeTally ps isFrust
  let fes := (fEdgeKeys ps isFrust).filter fun e => decide (nf e < f e)
  let nfes := (nfEdgeKeys ps isFrust).filter fun e => decide (f e ≤ nf e)
  (fes.map fun e => OutLine.fe (f e) ((f e : ℤ) - (nf e : ℤ)) e.1 e.2) ++
    (nfes.map fun e => OutLine.nfe (nf e) ((nf e : ℤ) - (f e : ℤ)) e.1 e.2) ++
    [OutLine.feSummary fes.length g.Es.length]

/-- `outputCycles`: an `FC`/`NFC` line per analyzed cycle, then the `#FC`
summary. -/
def outputCycles (g : Graph V) (ps : List (List V)) (isFrust : List Bool) :
    List (OutLine V) :=
  ((ps.zip isFrust).map fun c => if c.2 then OutLine.fc c.1 else OutLine.nfc c.1) ++
    [OutLine.fcSummary ((ps.zip isFrust).countP fun c => c.2) ps.length]

/-- `OutputResults`: decode every analyzed cycle back to path form, classify
it, and emit the vertex, edge and cycle sections. -/
def Graph.outputResults (g : Graph V) (ecs : List (List (V × V))) : List (OutLine V) :=
  let ps := ecs.map fun ec => (g.edgesToPath ec).getD []
  let isFrust := ps.map fun p => g.isFrustrated p
  outputVertices g ps isFrust ++ outputEdges g ps isFrust ++ outputCycles g ps isFrust

/-- A total order on canonical edges, used to present an edge `Finset` as a
list (the Go code iterates a `mapset` in unspecified order; a fixed order is
chosen here). -/
def pairLE (a b : V × V) : Prop := a.1 < b.1 ∨ (a.1 = b.1 ∧ a.2 ≤ b.2)

instance pairLE.decidableRel : DecidableRel (α := V × V) pairLE := fun a b => by
  unfold pairLE
  infer_instance

instance pairLE.isTrans : IsTrans (V × V) pairLE := by
  constructor
  intro a b c hab hbc
  rcases hab with h1 | ⟨h1, h2⟩ <;> rcases hbc with h3 | ⟨h3, h4⟩
  · exact Or.inl (h1.trans h3)
  · exact Or.inl (h3 ▸ h1)
  · exact Or.inl (h1 ▸ h3)
  · exact Or.inr ⟨h1.trans h3, h2.trans h4⟩

instance pairLE.isAntisymm : IsAntisymm (V × V) pairLE := by
  constructor
  intro a b hab hba
  rcases hab with h1 | ⟨h1, h2⟩ <;> rcases hba with h3 | ⟨h3, h4⟩
  · exact absurd (h1.trans h3) (lt_irrefl _)
  · exact absurd h1 (h3 ▸ lt_irrefl _)
  · exact absurd h3 (h1 ▸ lt_irrefl _)
  · exact Prod.ext h1 (le_antisymm h2 h4)

instance pairLE.isTotal : IsTotal (V × V) pairLE := by
  constructor
  intro a b
  rcases lt_trichotomy a.1 b.1 with h | h | h
  · exact Or.inl (Or.inl h)
  · rcases le_total a.2 b.2 with h2 | h2
    · exact Or.inl (Or.inr ⟨h, h2⟩)
    · exact Or.inr (Or.inr ⟨h.symm, h2⟩)
  · exact Or.inr (Or.inl h)

/-- Presentation of an edge set as an edge list (one fixed iteration order
of the Go `mapset`). -/
def edgeListOf (s : Finset (V × V)) : List (V × V) := s.sort pairLE

/-- The observable outcome of `main` after the graph has been read: whether
the "Graph is acyclic; no frustration can exist" notice was issued (followed
by a successful exit), and the report lines written to the output. -/
structure MainResult (V : Type) where
  acyclicNotice : Bool
  lines : List (OutLine V)
deriving DecidableEq

/-- `main` after input parsing: compute the basic cycles; if there are none,
issue the acyclic notice and exit successfully without further output;
otherwise report `#BCS`, optionally close the cycle set under Gibbs'
algorithm and report `#ECS`, and emit the statistics sections. -/
def Graph.mainRun (g : Graph V) (allCycs : Bool) : MainResult V :=
  let bPath := g.baseCyclePaths
  let bcs := bPath.map fun p => g.pathToEdges p
  if bcs.length = 0 then ⟨true, []⟩
  else if allCycs then
    let ecs := (g.elementaryCycles bcs).map edgeListOf
    ⟨false, OutLine.bcsCount bcs.length :: OutLine.ecsCount ecs.length ::
      g.outputResults ecs⟩
  else
    ⟨false, OutLine.bcsCount bcs.length :: g.outputResults bcs⟩

/-! ### Concrete example graphs -/

/-- A graph value with no vertices and no edges; the codec methods ignore
their receiver, so it serves as a receiver for concrete codec runs. -/
def emptyGraphEx : Graph ℕ := ⟨[], []⟩

/-- A three-vertex path graph (a tree): two edges, no cycles. -/
def treeGraphEx : Graph ℕ := ⟨[(0, 0), (1, 0), (2, 0)], [((0, 1), -1), ((1, 2), -1)]⟩

/-- The README's frustrated triangle `0-1-2`. -/
def triangleGraphEx : Graph ℕ :=
  ⟨[(0, 0), (1, 0), (2, 0)], [((0, 1), -1), ((1, 2), -1), ((0, 2), 1)]⟩

/-! ### C8: acyclic graphs terminate successfully with no report lines -/

/-- C8: if the graph is acyclic (the basic cycle count is 0), `main` issues
the "Graph is acyclic; no frustration can exist" notice and terminates
successfully, emitting no report lines at all (no `#BCS`, vertex, edge or
cycle statistics lines), for either setting of the all-cycles flag. -/
theorem c8_acyclic_terminates_silently (g : Graph V) (allCycs : Bool)
    (h : g.baseCyclePaths.length = 0) :
    g.mainRun allCycs = ⟨true, []⟩ := by
  unfold Graph.mainRun
  simp [h]

theorem c8_witness :
    treeGraphEx.baseCyclePaths.length = 0 ∧ treeGraphEx.mainRun true = ⟨true, []⟩ :=
  ⟨by decide, c8_acyclic_terminates_silently treeGraphEx true (by decide)⟩

/-! ### C6: the basics are contained in the elementary cycle collection -/

theorem listInsertAll_mem_of_mem {α : Type} [DecidableEq α] (xs : List α) (base : List α)
    (x : α) (h : x ∈ base) : x ∈ listInsertAll base xs := by
  induction xs generalizing base with
  | nil => exact h
  | cons y ys ih =>
    exact ih _ (by rw [List.mem_insert_iff]; right; exact h)

theorem gibbsStep_s_mono (sq : List (Finset (V × V)) × List (Finset (V × V)))
    (phiI : Finset (V × V)) (x : Finset (V × V)) (h : x ∈ sq.1) :
    x ∈ (gibbsStep sq phiI).1 := by
  simp only [gibbsStep]
  rw [List.mem_insert_iff]
  right
  exact listInsertAll_mem_of_mem _ _ _ h

theorem gibbsStep_s_adds (sq : List (Finset (V × V)) × List (Finset (V × V)))
    (phiI : Finset (V × V)) : phiI ∈ (gibbsStep sq phiI).1 := by
  simp only [gibbsStep]
  rw [List.mem_insert_iff]
  left
  rfl

theorem foldl_gibbs_s_mono (rest : List (Finset (V × V)))
    (sq : List (Finset (V × V)) × List (Finset (V × V))) (x : Finset (V × V))
    (h : x ∈ sq.1) : x ∈ (rest.foldl gibbsStep sq).1 := by
  induction rest generalizing sq with
  | nil => exact h
  | cons p ps ih => exact ih _ (gibbsStep_s_mono _ _ _ h)

theorem foldl_gibbs_s_basics (rest : List (Finset (V × V)))
    (sq : List (Finset (V × V)) × List (Finset (V × V))) (phiI : Finset (V × V))
    (h : phiI ∈ rest) : phiI ∈ (rest.foldl gibbsStep sq).1 := by
  induction rest generalizing sq with
  | nil => cases h
  | cons p ps ih =>
    rcases List.mem_cons.mp h with rfl | h2
    · exact foldl_gibbs_s_mono ps _ _ (gibbsStep_s_adds _ _)
    · exact ih _ h2

/-- C6: for a non-empty list of basic cycles, every basic cycle occurs (as
an edge set) in the collection returned by `elementaryCycles`: the
accumulator is seeded with the first basic cycle and every later iteration
adds its own basic cycle, and the accumulator only ever grows. -/
theorem c6_basics_in_elementaryCycles (g : Graph V) (bcs : List (List (V × V)))
    (hne : bcs ≠ []) (c : List (V × V)) (hc : c ∈ bcs) :
    c.toFinset ∈ g.elementaryCycles bcs := by
  cases bcs with
  | nil => exact absurd rfl hne
  | cons b0 rest =>
    unfold Graph.elementaryCycles
    simp only [List.map_cons]
    rcases List.mem_cons.mp hc with rfl | h2
    · exact foldl_gibbs_s_mono _ _ _ (by simp)
    · exact foldl_gibbs_s_basics _ _ _ (List.mem_map_of_mem _ h2)

theorem c6_witness :
    ([[(1, 2), (2, 3), (1, 3)], [(2, 3), (3, 4), (2, 4)]] : List (List (ℕ × ℕ))) ≠ [] ∧
      [(2, 3), (3, 4), (2, 4)] ∈ ([[(1, 2), (2, 3), (1, 3)], [(2, 3), (3, 4), (2, 4)]] :
        List (List (ℕ × ℕ))) ∧
      ([(2, 3), (3, 4), (2, 4)] : List (ℕ × ℕ)).toFinset ∈
        emptyGraphEx.elementaryCycles [[(1, 2), (2, 3), (1, 3)], [(2, 3), (3, 4), (2, 4)]] :=
  ⟨by decide, by decide,
    c6_basics_in_elementaryCycles emptyGraphEx _ (by decide) _ (by decide)⟩

/-! ### C4: the decoder does not validate non-simple edge sets -/

/-- C4: the claim (with spec §4.3/§7/§9) requires `edgesToPath` to fail with
an explicit "non-simple cycle" error on an edge set violating the degree-2
single-loop invariant.  The code does not: on `{(1,2),(2,3),(3,1),(1,4)}` —
vertex 1 has degree 3 and vertex 4 degree 1 — it silently returns the
malformed path `[1,2,3,1]`, repeating vertex 1 and dropping vertex 4. -/
theorem c4_edgesToPath_silent_on_invalid :
    emptyGraphEx.edgesToPath [(1, 2), (2, 3), (3, 1), (1, 4)] = some [1, 2, 3, 1] := by
  decide

/-! ### C7: per-vertex tallies and FV/NFV emission -/

/-- Recognizer for "an `FV` line naming vertex `v`". -/
def isFVLineFor (v : V) : OutLine V → Bool
  | OutLine.fv _ _ u => decide (u = v)
  | _ => false

/-- Recognizer for "an `NFV` line naming vertex `v`". -/
def isNFVLineFor (v : V) : OutLine V → Bool
  | OutLine.nfv _ _ u => decide (u = v)
  | _ => false

theorem countP_eq_ite_mem {α : Type} [DecidableEq α] (l : List α) (hl : l.Nodup) (v : α) :
    (l.countP fun u => decide (u = v)) = if v ∈ l then 1 else 0 := by
  induction l with
  | nil => simp
  | cons x xs ih =>
    rcases List.nodup_cons.mp hl with ⟨hx, hxs⟩
    rw [List.countP_cons, ih hxs]
    by_cases hxv : x = v
    · subst hxv
      simp [hx]
    · simp [hxv, Ne.symm hxv]

theorem tally_pos_iff (zs : List (List V × Bool)) (v : V) (q : List V × Bool → Bool) :
    0 < ((zs.filter q).map fun c => c.1.count v).sum ↔ ∃ c ∈ zs.filter q, v ∈ c.1 := by
  rw [Nat.pos_iff_ne_zero, Ne, List.sum_eq_zero_iff]
  push_neg
  constructor
  · rintro ⟨x, hx, hxne⟩
    rw [List.mem_map] at hx
    obtain ⟨c, hc, rfl⟩ := hx
    exact ⟨c, hc, List.count_pos_iff_mem.mp (Nat.pos_of_ne_zero hxne)⟩
  · rintro ⟨c, hc, hv⟩
    exact ⟨c.1.count v, List.mem_map_of_mem _ hc,
      Nat.pos_iff_ne_zero.mp (List.count_pos_iff_mem.mpr hv)⟩

theorem keys_mem_iff (zs : List (List V × Bool)) (v : V) (q : List V × Bool → Bool) :
    v ∈ ((zs.filter q).map Prod.fst).flatten.dedup ↔ ∃ c ∈ zs.filter q, v ∈ c.1 := by
  rw [List.mem_dedup, List.mem_flatten]
  constructor
  · rintro ⟨l, hl, hv⟩
    rw [List.mem_map] at hl
    obtain ⟨c, hc, rfl⟩ := hl
    exact ⟨c, hc, hv⟩
  · rintro ⟨c, hc, hv⟩
    exact ⟨c.1, List.mem_map_of_mem _ hc, hv⟩

theorem fVertKeys_mem_iff (ps : List (List V)) (isFrust : List Bool) (v : V) :
    v ∈ fVertKeys ps isFrust ↔ 0 < fVertTally ps isFrust v := by
  unfold fVertKeys fVertTally
  rw [keys_mem_iff, tally_pos_iff]

theorem nfVertKeys_mem_iff (ps : List (List V)) (isFrust : List Bool) (v : V) :
    v ∈ nfVertKeys ps isFrust ↔ 0 < nfVertTally ps isFrust v := by
  unfold nfVertKeys nfVertTally
  rw [keys_mem_iff, tally_pos_iff]

theorem outputVertices_countP_fv (g : Graph V) (ps : List (List V)) (isFrust : List Bool)
    (v : V) :
    (outputVertices g ps isFrust).countP (isFVLineFor v) =
      (((fVertKeys ps isFrust).filter fun u =>
          decide (nfVertTally ps isFrust u < fVertTally ps isFrust u)).countP
        fun u => decide (u = v)) := by
  simp only [outputVertices]
  rw [List.countP_append, List.countP_append, List.countP_map, List.countP_map]
  have h2 : (((nfVertKeys ps isFrust).filter fun u =>
      decide (fVertTally ps isFrust u ≤ nfVertTally ps isFrust u)).countP
        ((isFVLineFor v) ∘ fun u =>
          OutLine.nfv (nfVertTally ps isFrust u)
            ((nfVertTally ps isFrust u : ℤ) - (fVertTally ps isFrust u : ℤ)) u)) = 0 := by
    rw [List.countP_eq_zero]
    intro u hu
    simp [isFVLineFor, Function.comp]
  have h3 : ([OutLine.fvSummary (((fVertKeys ps isFrust).filter fun u =>
      decide (nfVertTally ps isFrust u < fVertTally ps isFrust u)).length)
        g.Vs.length] : List (OutLine V)).countP (isFVLineFor v) = 0 := by
    rw [List.countP_eq_zero]
    intro u hu
    rw [List.mem_singleton] at hu
    subst hu
    simp [isFVLineFor]
  rw [h2, h3]
  simp only [Nat.add_zero]
  rfl

theorem outputVertices_countP_nfv (g : Graph V) (ps : List (List V)) (isFrust : List Bool)
    (v : V) :
    (outputVertices g ps isFrust).countP (isNFVLineFor v) =
      (((nfVertKeys ps isFrust).filter fun u =>
          decide (fVertTally ps isFrust u ≤ nfVertTally ps isFrust u)).countP
        fun u => decide (u = v)) := by
  simp only [outputVertices]
  rw [List.countP_append, List.countP_append, List.countP_map, List.countP_map]
  have h1 : (((fVertKeys ps isFrust).filter fun u =>
      decide (nfVertTally ps isFrust u < fVertTally ps isFrust u)).countP
        ((isNFVLineFor v) ∘ fun u =>
          OutLine.fv (fVertTally ps isFrust u)
            ((fVertTally ps isFrust u : ℤ) - (nfVertTally ps isFrust u : ℤ)) u)) = 0 := by
    rw [List.countP_eq_zero]
    intro u hu
    simp [isNFVLineFor, Function.comp]
  have h3 : ([OutLine.fvSummary (((fVertKeys ps isFrust).filter fun u =>
      decide (nfVertTally ps isFrust u < fVertTally ps isFrust u)).length)
        g.Vs.length] : List (OutLine V)).countP (isNFVLineFor v) = 0 := by
    rw [List.countP_eq_zero]
    intro u hu
    rw [List.mem_singleton] at hu
    subst hu
    simp [isNFVLineFor]
  rw [h1, h3]
  simp only [Nat.zero_add, Nat.add_zero]
  rfl

theorem fVertKeys_nodup (ps : List (List V)) (isFrust : List Bool) :
    (fVertKeys ps isFrust).Nodup := by
  unfold fVertKeys
  exact List.nodup_dedup _

theorem nfVertKeys_nodup (ps : List (List V)) (isFrust : List Bool) :
    (nfVertKeys ps isFrust).Nodup := by
  unfold nfVertKeys
  exact List.nodup_dedup _

theorem tally_sum_eq (zs : List (List V × Bool)) (v : V) (h : ∀ c ∈ zs, c.1.Nodup) :
    ((zs.filter fun c => c.2).map fun c => c.1.count v).sum +
      ((zs.filter fun c => !c.2).map fun c => c.1.count v).sum =
      zs.countP fun c => decide (v ∈ c.1) := by
  induction zs with
  | nil => simp
  | cons c cs ih =>
    have hc := h c (List.mem_cons_self c cs)
    have ihh := ih fun d hd => h d (List.mem_cons_of_mem _ hd)
    rw [List.filter_cons, List.filter_cons, List.countP_cons]
    by_cases hv : v ∈ c.1
    · have hcount : c.1.count v = 1 := List.count_eq_one_of_mem hc hv
      cases c2 : c.2 <;> simp [c2, hv, hcount, ← ihh] <;> omega
    · have hcount : c.1.count v = 0 := List.count_eq_zero_of_not_mem hv
      cases c2 : c.2 <;> simp [c2, hv, hcount, ← ihh]

/-- C7: for a vertex occurring in at least one analyzed (simple) cycle,
`outputVertices` emits exactly one of an `FV` line (iff its frustrated tally
strictly exceeds its non-frustrated tally) or an `NFV` line (iff the
non-frustrated tally is at least the frustrated one, ties going to `NFV`),
and the two tallies sum to the number of analyzed cycles containing the
vertex. -/
theorem c7_outputVertices_partition (g : Graph V) (ps : List (List V))
    (isFrust : List Bool) (hlen : ps.length = isFrust.length)
    (hnodup : ∀ p ∈ ps, p.Nodup) (v : V) (hv : ∃ p ∈ ps, v ∈ p) :
    ((outputVertices g ps isFrust).countP (isFVLineFor v) =
        if nfVertTally ps isFrust v < fVertTally ps isFrust v then 1 else 0) ∧
      ((outputVertices g ps isFrust).countP (isNFVLineFor v) =
        if fVertTally ps isFrust v ≤ nfVertTally ps isFrust v then 1 else 0) ∧
      (outputVertices g ps isFrust).countP (isFVLineFor v) +
          (outputVertices g ps isFrust).countP (isNFVLineFor v) = 1 ∧
      fVertTally ps isFrust v + nfVertTally ps isFrust v =
        (ps.countP fun p => decide (v ∈ p)) := by
  have hzs : ∀ c ∈ ps.zip isFrust, c.1.Nodup := fun c hc =>
    hnodup c.1 (List.mem_zip hc).1
  have hsum : fVertTally ps isFrust v + nfVertTally ps isFrust v =
      ((ps.zip isFrust).countP fun c => decide (v ∈ c.1)) :=
    tally_sum_eq (ps.zip isFrust) v hzs
  have hzipc : ((ps.zip isFrust).countP fun c => decide (v ∈ c.1)) =
      (ps.countP fun p => decide (v ∈ p)) := by
    have hmap : (ps.zip isFrust).map Prod.fst = ps :=
      List.map_fst_zip ps isFrust (le_of_eq hlen)
    calc ((ps.zip isFrust).countP fun c => decide (v ∈ c.1))
        = ((ps.zip isFrust).map Prod.fst).countP fun p => decide (v ∈ p) := by
          rw [List.countP_map]
          rfl
      _ = ps.countP fun p => decide (v ∈ p) := by rw [hmap]
  have hsum2 : fVertTally ps isFrust v + nfVertTally ps isFrust v =
      (ps.countP fun p => decide (v ∈ p)) := by rw [hsum, hzipc]
  have hposcount : 0 < (ps.countP fun p => decide (v ∈ p)) := by
    rw [List.countP_pos]
    obtain ⟨p, hp, hvp⟩ := hv
    exact ⟨p, hp, decide_eq_true hvp⟩
  have hfv : (outputVertices g ps isFrust).countP (isFVLineFor v) =
      if nfVertTally ps isFrust v < fVertTally ps isFrust v then 1 else 0 := by
    rw [outputVertices_countP_fv,
      countP_eq_ite_mem _ ((fVertKeys_nodup ps isFrust).filter _) v]
    by_cases hcond : nfVertTally ps isFrust v < fVertTally ps isFrust v
    · rw [if_pos hcond, if_pos]
      rw [List.mem_filter]
      exact ⟨(fVertKeys_mem_iff ps isFrust v).mpr (Nat.lt_of_le_of_lt (Nat.zero_le _) hcond),
        decide_eq_true hcond⟩
    · rw [if_neg hcond, if_neg]
      rw [List.mem_filter]
      rintro ⟨-, hdec⟩
      exact hcond (of_decide_eq_true hdec)
  have hnfv : (outputVertices g ps isFrust).countP (isNFVLineFor v) =
      if fVertTally ps isFrust v ≤ nfVertTally ps isFrust v then 1 else 0 := by
    rw [outputVertices_countP_nfv,
      countP_eq_ite_mem _ ((nfVertKeys_nodup ps isFrust).filter _) v]
    by_cases hcond : fVertTally ps isFrust v ≤ nfVertTally ps isFrust v
    · rw [if_pos hcond, if_pos]
      rw [List.mem_filter]
      refine ⟨(nfVertKeys_mem_iff ps isFrust v).mpr ?_, decide_eq_true hcond⟩
      omega
    · rw [if_neg hcond, if_neg]
      rw [List.mem_filter]
      rintro ⟨-, hdec⟩
      exact hcond (of_decide_eq_true hdec)
  refine ⟨hfv, hnfv, ?_, hsum2⟩
  rw [hfv, hnfv]
  by_cases hcond : nfVertTally ps isFrust v < fVertTally ps isFrust v
  · rw [if_pos hcond, if_neg (by omega)]
  · rw [if_neg hcond, if_pos (by omega)]

theorem c7_witness :
    (([[1, 2, 3], [1, 4, 5]] : List (List ℕ)).length = ([true, false] : List Bool).length) ∧
      (∀ p ∈ ([[1, 2, 3], [1, 4, 5]] : List (List ℕ)), p.Nodup) ∧
      (∃ p ∈ ([[1, 2, 3], [1, 4, 5]] : List (List ℕ)), 1 ∈ p) ∧
      (((outputVertices emptyGraphEx [[1, 2, 3], [1, 4, 5]] [true, false]).countP
          (isFVLineFor 1) =
        if nfVertTally [[1, 2, 3], [1, 4, 5]] [true, false] 1 <
            fVertTally [[1, 2, 3], [1, 4, 5]] [true, false] 1 then 1 else 0) ∧
        ((outputVertices emptyGraphEx [[1, 2, 3], [1, 4, 5]] [true, false]).countP
          (isNFVLineFor 1) =
          if fVertTally [[1, 2, 3], [1, 4, 5]] [true, false] 1 ≤
              nfVertTally [[1, 2, 3], [1, 4, 5]] [true, false] 1 then 1 else 0) ∧
        (outputVertices emptyGraphEx [[1, 2, 3], [1, 4, 5]] [true, false]).countP
            (isFVLineFor 1) +
          (outputVertices emptyGraphEx [[1, 2, 3], [1, 4, 5]] [true, false]).countP
            (isNFVLineFor 1) = 1 ∧
        fVertTally [[1, 2, 3], [1, 4, 5]] [true, false] 1 +
            nfVertTally [[1, 2, 3], [1, 4, 5]] [true, false] 1 =
          (([[1, 2, 3], [1, 4, 5]] : List (List ℕ)).countP fun p => decide (1 ∈ p))) :=
  ⟨by decide, by decide, ⟨[1, 2, 3], by decide, by decide⟩,
    c7_outputVertices_partition emptyGraphEx [[1, 2, 3], [1, 4, 5]] [true, false]
      (by decide) (by decide) 1 ⟨[1, 2, 3], by decide, by decide⟩⟩

/-! ### C2: the basic cycle count is the cyclomatic number -/

/-- Adjacency through an edge-key list, in either orientation. -/
def adjVia (es : List (V × V)) (u v : V) : Prop := (u, v) ∈ es ∨ (v, u) ∈ es

/-- Connectivity: the reflexive-transitive closure of adjacency. -/
def connVia (es : List (V × V)) : V → V → Prop := Relation.ReflTransGen (adjVia es)

/-- The connected components of the graph: the connectivity classes of its
vertices. -/
def componentSets (g : Graph V) : Set (Set V) :=
  {C | ∃ v ∈ g.vertexList, C = {u | u ∈ g.vertexList ∧ connVia g.edgeKeys u v}}

theorem adjVia_symm (es : List (V × V)) : Symmetric (adjVia es) := fun _ _ h => h.symm

theorem connVia_symm (es : List (V × V)) : Symmetric (connVia es) :=
  Relation.ReflTransGen.symmetric (adjVia_symm es)

theorem connVia_nil (u v : V) : connVia [] u v ↔ u = v := by
  constructor
  · intro h
    induction h with
    | refl => rfl
    | tail _ hadj ih => rcases hadj with h | h <;> simp at h
  · rintro rfl
    exact Relation.ReflTransGen.refl

theorem connVia_mono (es es' : List (V × V)) (hsub : ∀ e ∈ es, e ∈ es') (u v : V)
    (h : connVia es u v) : connVia es' u v := by
  induction h with
  | refl => exact Relation.ReflTransGen.refl
  | tail _ hadj ih =>
    refine Relation.ReflTransGen.tail ih ?_
    rcases hadj with h | h
    · exact Or.inl (hsub _ h)
    · exact Or.inr (hsub _ h)

theorem connVia_append_iff (done : List (V × V)) (e : V × V) (u v : V) :
    connVia (done ++ [e]) u v ↔
      connVia done u v ∨ (connVia done u e.1 ∧ connVia done e.2 v) ∨
        (connVia done u e.2 ∧ connVia done e.1 v) := by
  constructor
  · intro h
    induction h with
    | refl => exact Or.inl Relation.ReflTransGen.refl
    | @tail w z hwz hadj ih =>
      have hadj2 : adjVia done w z ∨ (w, z) = e ∨ (z, w) = e := by
        rcases hadj with h | h
        · rw [List.mem_append, List.mem_singleton] at h
          rcases h with h | h
          · exact Or.inl (Or.inl h)
          · exact Or.inr (Or.inl h)
        · rw [List.mem_append, List.mem_singleton] at h
          rcases h with h | h
          · exact Or.inl (Or.inr h)
          · exact Or.inr (Or.inr h)
      rcases hadj2 with hd | he | he
      · rcases ih with ih | ⟨ih1, ih2⟩ | ⟨ih1, ih2⟩
        · exact Or.inl (ih.tail hd)
        · exact Or.inr (Or.inl ⟨ih1, ih2.tail hd⟩)
        · exact Or.inr (Or.inr ⟨ih1, ih2.tail hd⟩)
      · have hw : w = e.1 := congrArg Prod.fst he
        have hz : z = e.2 := congrArg Prod.snd he
        subst hw
        subst hz
        rcases ih with ih | ⟨ih1, ih2⟩ | ⟨ih1, ih2⟩
        · exact Or.inr (Or.inl ⟨ih, Relation.ReflTransGen.refl⟩)
        · exact Or.inr (Or.inl ⟨ih1, Relation.ReflTransGen.refl⟩)
        · exact Or.inl ih1
      · have hw : w = e.2 := congrArg Prod.snd he
        have hz : z = e.1 := congrArg Prod.fst he
        subst hw
        subst hz
        rcases ih with ih | ⟨ih1, ih2⟩ | ⟨ih1, ih2⟩
        · exact Or.inr (Or.inr ⟨ih, Relation.ReflTransGen.refl⟩)
        · exact Or.inl ih1
        · exact Or.inr (Or.inr ⟨ih1, Relation.ReflTransGen.refl⟩)
  · have hmono : ∀ x y, connVia done x y → connVia (done ++ [e]) x y := fun x y h =>
      connVia_mono done (done ++ [e]) (fun d hd => List.mem_append_left _ hd) x y h
    have hstep : connVia (done ++ [e]) e.1 e.2 :=
      Relation.ReflTransGen.single (Or.inl (List.mem_append_right _ (List.mem_singleton.mpr rfl)))
    rintro (h | ⟨h1, h2⟩ | ⟨h1, h2⟩)
    · exact hmono _ _ h
    · exact ((hmono _ _ h1).trans hstep).trans (hmono _ _ h2)
    · exact ((hmono _ _ h1).trans (connVia_symm _ hstep)).trans (hmono _ _ h2)

theorem findClass_spec (part : List (List V)) (u : V) (h : ∃ c ∈ part, u ∈ c) :
    findClass part u ∈ part ∧ u ∈ findClass part u := by
  unfold findClass
  obtain ⟨c, hc, hu⟩ := h
  obtain ⟨q, hq⟩ : ∃ q, part.find? (fun c => decide (u ∈ c)) = some q := by
    cases hf : part.find? fun c => decide (u ∈ c)
    · exact absurd (List.find?_eq_none.mp hf c hc) (by simpa using hu)
    · exact ⟨_, rfl⟩
  rw [hq, Option.getD_some]
  refine ⟨List.mem_of_find?_eq_some hq, ?_⟩
  have hfs := List.find?_some hq
  exact of_decide_eq_true hfs

theorem disjointness_symm :
    Symmetric fun (c d : List V) => ∀ x, x ∈ c → x ∉ d :=
  fun c d h x hxd hxc => h x hxc hxd

theorem findClass_eq_of_mem (part : List (List V))
    (hdisj : part.Pairwise fun c d => ∀ x, x ∈ c → x ∉ d)
    (c : List V) (hc : c ∈ part) (u : V) (hu : u ∈ c) : findClass part u = c := by
  obtain ⟨hmem, humem⟩ := findClass_spec part u ⟨c, hc, hu⟩
  by_contra hne2
  exact hdisj.forall disjointness_symm hmem hc hne2 u humem hu

theorem sameSet_iff (part : List (List V)) (u v : V) :
    sameSet part u v = true ↔ v ∈ findClass part u := by
  unfold sameSet
  exact decide_eq_true_iff

/-- The loop invariant of `spanningTree`'s union-find fold: the partition
covers the graph's vertices with disjoint nonempty classes, the class and
edge counts balance, and same-set membership coincides with connectivity
through the processed edges `done`. -/
structure STInv (g : Graph V) (done : List (V × V))
    (st : List (List V) × List (V × V) × List (V × V)) : Prop where
  classes_ne : ∀ c ∈ st.1, c ≠ []
  disj : st.1.Pairwise fun c d => ∀ x, x ∈ c → x ∉ d
  cover : ∀ x : V, (∃ c ∈ st.1, x ∈ c) ↔ x ∈ g.vertexList
  count_classes : st.1.length + st.2.1.length = g.vertexList.length
  count_edges : st.2.1.length + st.2.2.length = done.length
  sem : ∀ u v, u ∈ g.vertexList → v ∈ g.vertexList →
    (sameSet st.1 u v = true ↔ connVia done u v)

theorem stInv_init (g : Graph V) (hV : g.vertexList.Nodup) :
    STInv g [] (g.vertexList.map fun v => [v], [], []) := by
  have hdisj : (g.vertexList.map fun v => [v]).Pairwise
      fun c d => ∀ x, x ∈ c → x ∉ d := by
    rw [List.pairwise_map]
    refine hV.imp_of_mem ?_
    intro x y hx hy hxy z hz hz2
    rw [List.mem_singleton] at hz hz2
    exact hxy (hz ▸ hz2 ▸ rfl)
  refine ⟨?_, hdisj, ?_, ?_, ?_, ?_⟩
  · intro c hc
    rw [List.mem_map] at hc
    obtain ⟨v, -, rfl⟩ := hc
    simp
  · intro x
    constructor
    · rintro ⟨c, hc, hx⟩
      rw [List.mem_map] at hc
      obtain ⟨v, hv, rfl⟩ := hc
      rw [List.mem_singleton] at hx
      exact hx ▸ hv
    · intro hx
      exact ⟨[x], List.mem_map_of_mem _ hx, List.mem_singleton.mpr rfl⟩
  · simp
  · simp
  · intro u v hu hv
    rw [sameSet_iff, connVia_nil,
      findClass_eq_of_mem _ hdisj [u] (List.mem_map_of_mem _ hu) u
        (List.mem_singleton.mpr rfl)]
    rw [List.mem_singleton]
    exact eq_comm

theorem stInv_step (g : Graph V) (done : List (V × V))
    (st : List (List V) × List (V × V) × List (V × V)) (e : V × V)
    (he1 : e.1 ∈ g.vertexList) (he2 : e.2 ∈ g.vertexList)
    (inv : STInv g done st) : STInv g (done ++ [e]) (stStep st e) := by
  obtain ⟨part, t, nt⟩ := st
  obtain ⟨a, b⟩ := e
  obtain ⟨hne, hdisj, hcov, hcc, hce, hsem⟩ := inv
  have hcc2 : part.length + t.length = g.vertexList.length := hcc
  have hce2 : t.length + nt.length = done.length := hce
  by_cases hss : sameSet part a b = true
  · have hstep : stStep (part, t, nt) (a, b) = (part, t, nt ++ [(a, b)]) := by
      simp [stStep, hss]
    rw [hstep]
    have hab : connVia done a b := (hsem a b he1 he2).mp hss
    refine ⟨hne, hdisj, hcov, hcc2, ?_, ?_⟩
    · simp only [List.length_append, List.length_cons, List.length_nil]
      omega
    · intro u v hu hv
      have hconn : connVia (done ++ [(a, b)]) u v ↔ connVia done u v := by
        rw [connVia_append_iff]
        constructor
        · rintro (h | ⟨h1, h2⟩ | ⟨h1, h2⟩)
          · exact h
          · exact (h1.trans hab).trans h2
          · exact (h1.trans (connVia_symm done hab)).trans h2
        · exact Or.inl
      rw [hconn]
      exact hsem u v hu hv
  · have hssf : sameSet part a b = false := by
      rwa [Bool.not_eq_true] at hss
    have hstep : stStep (part, t, nt) (a, b) =
        (unionClass part a b, t ++ [(a, b)], nt) := by
      simp [stStep, hssf]
    rw [hstep]
    have hunion : unionClass part a b =
        (findClass part a ++ findClass part b) ::
          part.filter (fun c => decide ¬(a ∈ c ∨ b ∈ c)) := rfl
    rw [hunion]
    have hea : ∃ c ∈ part, a ∈ c := (hcov a).mpr he1
    have heb : ∃ c ∈ part, b ∈ c := (hcov b).mpr he2
    obtain ⟨hcu_mem, ha_cu⟩ := findClass_spec part a hea
    obtain ⟨hcv_mem, hb_cv⟩ := findClass_spec part b heb
    have hb_not_cu : b ∉ findClass part a := by
      rw [sameSet_iff] at hss
      exact hss
    have hcu_ne_cv : findClass part a ≠ findClass part b := by
      intro h
      apply hb_not_cu
      rw [h]
      exact hb_cv
    have hnodup : part.Nodup := by
      have H : ∀ {c d : List V}, c ∈ part → d ∈ part →
          (∀ x, x ∈ c → x ∉ d) → c ≠ d := by
        intro c d hc hd hcd heq
        obtain ⟨x, hx⟩ := List.exists_mem_of_ne_nil c (hne c hc)
        exact hcd x hx (heq ▸ hx)
      exact hdisj.imp_of_mem H
    have hqperm : part.filter (fun c => decide (a ∈ c ∨ b ∈ c)) ~
        [findClass part a, findClass part b] := by
      rw [List.perm_ext_iff_of_nodup (hnodup.filter _) (by simp [hcu_ne_cv])]
      intro c
      rw [List.mem_filter]
      constructor
      · rintro ⟨hc, hcd⟩
        rcases of_decide_eq_true hcd with hac | hbc
        · rw [List.mem_cons]
          exact Or.inl (findClass_eq_of_mem part hdisj c hc a hac).symm
        · rw [List.mem_cons, List.mem_singleton]
          exact Or.inr (findClass_eq_of_mem part hdisj c hc b hbc).symm
      · intro hc
        rcases List.mem_cons.mp hc with rfl | hc2
        · exact ⟨hcu_mem, decide_eq_true (Or.inl ha_cu)⟩
        · rw [List.mem_singleton] at hc2
          subst hc2
          exact ⟨hcv_mem, decide_eq_true (Or.inr hb_cv)⟩
    have hqlen : (part.filter fun c => decide (a ∈ c ∨ b ∈ c)).length = 2 := by
      rw [hqperm.length_eq]
      rfl
    have hpartlen : 2 ≤ part.length := by
      calc 2 = (part.filter fun c => decide (a ∈ c ∨ b ∈ c)).length := hqlen.symm
        _ ≤ part.length := List.length_filter_le _ _
    have hfillen : (part.filter fun c => decide ¬(a ∈ c ∨ b ∈ c)).length =
        part.length - 2 := by
      have hpp := (List.filter_append_perm (fun c => decide (a ∈ c ∨ b ∈ c)) part).length_eq
      rw [List.length_append] at hpp
      have hnotq : (part.filter fun c => !(decide (a ∈ c ∨ b ∈ c))) =
          (part.filter fun c => decide ¬(a ∈ c ∨ b ∈ c)) := by
        congr 1
        funext c
        rw [decide_not]
      rw [hnotq] at hpp
      omega
    have hclasses_ne : ∀ c ∈ (findClass part a ++ findClass part b) ::
        part.filter (fun c => decide ¬(a ∈ c ∨ b ∈ c)), c ≠ [] := by
      intro c hc
      rcases List.mem_cons.mp hc with rfl | hc2
      · intro hnil
        rw [List.append_eq_nil] at hnil
        exact hne _ hcu_mem hnil.1
      · exact hne c (List.mem_of_mem_filter hc2)
    have hdisj2 : ((findClass part a ++ findClass part b) ::
        part.filter (fun c => decide ¬(a ∈ c ∨ b ∈ c))).Pairwise
          fun c d => ∀ x, x ∈ c → x ∉ d := by
      rw [List.pairwise_cons]
      constructor
      · intro d hd x hxM hxd
        have hdp := List.mem_filter.mp hd
        have hdnab := of_decide_eq_true hdp.2
        rcases List.mem_append.mp hxM with hxcu | hxcv
        · have h1 := findClass_eq_of_mem part hdisj _ hcu_mem x hxcu
          have h2 := findClass_eq_of_mem part hdisj d hdp.1 x hxd
          apply hdnab
          left
          rw [← h2, h1]
          exact ha_cu
        · have h1 := findClass_eq_of_mem part hdisj _ hcv_mem x hxcv
          have h2 := findClass_eq_of_mem part hdisj d hdp.1 x hxd
          apply hdnab
          right
          rw [← h2, h1]
          exact hb_cv
      · exact List.Pairwise.sublist (List.filter_sublist _) hdisj
    have hconn_cu : ∀ w, w ∈ g.vertexList →
        (w ∈ findClass part a ↔ connVia done w a) := by
      intro w hw
      constructor
      · intro hwcu
        exact connVia_symm done ((hsem a w he1 hw).mp ((sameSet_iff _ _ _).mpr hwcu))
      · intro hconn
        exact (sameSet_iff _ _ _).mp ((hsem a w he1 hw).mpr (connVia_symm done hconn))
    have hconn_cv : ∀ w, w ∈ g.vertexList →
        (w ∈ findClass part b ↔ connVia done w b) := by
      intro w hw
      constructor
      · intro hwcv
        exact connVia_symm done ((hsem b w he2 hw).mp ((sameSet_iff _ _ _).mpr hwcv))
      · intro hconn
        exact (sameSet_iff _ _ _).mp ((hsem b w he2 hw).mpr (connVia_symm done hconn))
    have hM_iff : ∀ w, w ∈ g.vertexList →
        (w ∈ findClass part a ++ findClass part b ↔
          (connVia done w a ∨ connVia done w b)) := by
      intro w hw
      rw [List.mem_append, hconn_cu w hw, hconn_cv w hw]
    refine ⟨hclasses_ne, hdisj2, ?_, ?_, ?_, ?_⟩
    · intro x
      constructor
      · rintro ⟨c, hc, hx⟩
        rcases List.mem_cons.mp hc with rfl | hc2
        · rcases List.mem_append.mp hx with h | h
          · exact (hcov x).mp ⟨_, hcu_mem, h⟩
          · exact (hcov x).mp ⟨_, hcv_mem, h⟩
        · exact (hcov x).mp ⟨c, List.mem_of_mem_filter hc2, hx⟩
      · intro hx
        obtain ⟨c, hc, hxc⟩ := (hcov x).mpr hx
        by_cases hcab : a ∈ c ∨ b ∈ c
        · rcases hcab with h | h
          · have heq := findClass_eq_of_mem part hdisj c hc a h
            refine ⟨_, List.mem_cons_self _ _, List.mem_append.mpr (Or.inl ?_)⟩
            rw [heq]
            exact hxc
          · have heq := findClass_eq_of_mem part hdisj c hc b h
            refine ⟨_, List.mem_cons_self _ _, List.mem_append.mpr (Or.inr ?_)⟩
            rw [heq]
            exact hxc
        · exact ⟨c, List.mem_cons_of_mem _ (List.mem_filter.mpr
            ⟨hc, decide_eq_true hcab⟩), hxc⟩
    · simp only [List.length_cons, List.length_append, List.length_nil, hfillen]
      omega
    · simp only [List.length_append, List.length_cons, List.length_nil]
      omega
    · intro u v hu hv
      rw [sameSet_iff, connVia_append_iff]
      have hfc_merged : ∀ w, w ∈ findClass part a ++ findClass part b →
          findClass ((findClass part a ++ findClass part b) ::
            part.filter (fun c => decide ¬(a ∈ c ∨ b ∈ c))) w =
            findClass part a ++ findClass part b := fun w hwM =>
        findClass_eq_of_mem _ hdisj2 _ (List.mem_cons_self _ _) w hwM
      have hfc_old : ∀ w, w ∈ g.vertexList → w ∉ findClass part a ++ findClass part b →
          findClass ((findClass part a ++ findClass part b) ::
            part.filter (fun c => decide ¬(a ∈ c ∨ b ∈ c))) w =
            findClass part w := by
        intro w hw hwM
        obtain ⟨hc_mem, hwc⟩ := findClass_spec part w ((hcov w).mpr hw)
        refine findClass_eq_of_mem _ hdisj2 (findClass part w) ?_ w hwc
        refine List.mem_cons_of_mem _ (List.mem_filter.mpr ⟨hc_mem, decide_eq_true ?_⟩)
        rintro (hac | hbc)
        · have h1 := findClass_eq_of_mem part hdisj (findClass part w) hc_mem a hac
          apply hwM
          refine List.mem_append.mpr (Or.inl ?_)
          rw [h1]
          exact hwc
        · have h1 := findClass_eq_of_mem part hdisj (findClass part w) hc_mem b hbc
          apply hwM
          refine List.mem_append.mpr (Or.inr ?_)
          rw [h1]
          exact hwc
      by_cases huM : u ∈ findClass part a ++ findClass part b
      · rw [hfc_merged u huM, hM_iff v hv]
        obtain hua | hub := (hM_iff u hu).mp huM
        · constructor
          · rintro (hva | hvb)
            · exact Or.inl (hua.trans (connVia_symm done hva))
            · exact Or.inr (Or.inl ⟨hua, connVia_symm done hvb⟩)
          · rintro (h | ⟨h1, h2⟩ | ⟨h1, h2⟩)
            · exact Or.inl ((connVia_symm done h).trans hua)
            · exact Or.inr (connVia_symm done h2)
            · exact Or.inl (connVia_symm done h2)
        · constructor
          · rintro (hva | hvb)
            · exact Or.inr (Or.inr ⟨hub, connVia_symm done hva⟩)
            · exact Or.inl (hub.trans (connVia_symm done hvb))
          · rintro (h | ⟨h1, h2⟩ | ⟨h1, h2⟩)
            · exact Or.inr ((connVia_symm done h).trans hub)
            · exact Or.inr (connVia_symm done h2)
            · exact Or.inl (connVia_symm done h2)
      · rw [hfc_old u hu huM]
        have hbase : v ∈ findClass part u ↔ connVia done u v := by
          rw [← sameSet_iff]
          exact hsem u v hu hv
        rw [hbase]
        have hnua : ¬connVia done u a := fun h =>
          huM ((hM_iff u hu).mpr (Or.inl h))
        have hnub : ¬connVia done u b := fun h =>
          huM ((hM_iff u hu).mpr (Or.inr h))
        constructor
        · exact Or.inl
        · rintro (h | ⟨h1, h2⟩ | ⟨h1, h2⟩)
          · exact h
          · exact absurd h1 hnua
          · exact absurd h1 hnub

theorem stInv_fold (g : Graph V) (todo : List (V × V)) :
    ∀ (done : List (V × V)) (st : List (List V) × List (V × V) × List (V × V)),
      (∀ e ∈ todo, e.1 ∈ g.vertexList ∧ e.2 ∈ g.vertexList) →
      STInv g done st → STInv g (done ++ todo) (todo.foldl stStep st) := by
  induction todo with
  | nil =>
    intro done st _ inv
    simpa using inv
  | cons e rest ih =>
    intro done st htodo inv
    have hstep := stInv_step g done st e (htodo e (List.mem_cons_self _ _)).1
      (htodo e (List.mem_cons_self _ _)).2 inv
    have hrec := ih (done ++ [e]) (stStep st e)
      (fun d hd => htodo d (List.mem_cons_of_mem _ hd)) hstep
    rw [List.foldl_cons]
    have happ : done ++ e :: rest = (done ++ [e]) ++ rest := by simp
    rw [happ]
    exact hrec

theorem spanningTree_inv (g : Graph V) (hV : g.vertexList.Nodup)
    (hE : ∀ e ∈ g.edgeKeys, e.1 ∈ g.vertexList ∧ e.2 ∈ g.vertexList) :
    STInv g g.edgeKeys
      (g.edgeKeys.foldl stStep (g.vertexList.map fun v => [v], [], [])) := by
  have h := stInv_fold g g.edgeKeys [] _ hE (stInv_init g hV)
  simpa using h

theorem part_nodup_of (part : List (List V)) (hne : ∀ c ∈ part, c ≠ [])
    (hdisj : part.Pairwise fun c d => ∀ x, x ∈ c → x ∉ d) : part.Nodup := by
  have H : ∀ {c d : List V}, c ∈ part → d ∈ part →
      (∀ x, x ∈ c → x ∉ d) → c ≠ d := by
    intro c d hc hd hcd heq
    obtain ⟨x, hx⟩ := List.exists_mem_of_ne_nil c (hne c hc)
    exact hcd x hx (heq ▸ hx)
  exact hdisj.imp_of_mem H

theorem image_memset_ncard (part : List (List V)) (hne : ∀ c ∈ part, c ≠ [])
    (hdisj : part.Pairwise fun c d => ∀ x, x ∈ c → x ∉ d) :
    Set.ncard ((fun c : List V => {x | x ∈ c}) '' {c | c ∈ part}) = part.length := by
  have hinj : Set.InjOn (fun c : List V => {x | x ∈ c}) {c | c ∈ part} := by
    intro c hc d hd heq
    by_contra hcd
    obtain ⟨x, hx⟩ := List.exists_mem_of_ne_nil c (hne c hc)
    have hxd : x ∈ d := by
      have hxset : x ∈ (fun c : List V => {y | y ∈ c}) c := hx
      rw [heq] at hxset
      exact hxset
    exact hdisj.forall disjointness_symm hc hd hcd x hx hxd
  rw [Set.ncard_image_of_injOn hinj]
  have hset : {c | c ∈ part} = ↑part.toFinset := by
    rw [List.coe_toFinset]
  rw [hset, Set.ncard_coe_Finset, List.toFinset_card_of_nodup
    (part_nodup_of part hne hdisj)]

theorem componentSets_eq_classes (g : Graph V)
    (st : List (List V) × List (V × V) × List (V × V))
    (inv : STInv g g.edgeKeys st) :
    componentSets g = (fun c : List V => {x | x ∈ c}) '' {c | c ∈ st.1} := by
  have hclass_iff : ∀ v, v ∈ g.vertexList → ∀ u,
      (u ∈ findClass st.1 v ↔ u ∈ g.vertexList ∧ connVia g.edgeKeys u v) := by
    intro v hv u
    constructor
    · intro huc
      have hu : u ∈ g.vertexList :=
        (inv.cover u).mp ⟨_, (findClass_spec st.1 v ((inv.cover v).mpr hv)).1, huc⟩
      exact ⟨hu, connVia_symm _ ((inv.sem v u hv hu).mp ((sameSet_iff _ _ _).mpr huc))⟩
    · rintro ⟨hu, hconn⟩
      exact (sameSet_iff _ _ _).mp ((inv.sem v u hv hu).mpr (connVia_symm _ hconn))
  ext C
  simp only [componentSets, Set.mem_setOf_eq, Set.mem_image]
  constructor
  · rintro ⟨v, hv, rfl⟩
    refine ⟨findClass st.1 v, (findClass_spec st.1 v ((inv.cover v).mpr hv)).1, ?_⟩
    ext u
    simp only [Set.mem_setOf_eq]
    exact hclass_iff v hv u
  · rintro ⟨c, hc, rfl⟩
    obtain ⟨v, hvc⟩ := List.exists_mem_of_ne_nil c (inv.classes_ne c hc)
    have hv : v ∈ g.vertexList := (inv.cover v).mp ⟨c, hc, hvc⟩
    refine ⟨v, hv, ?_⟩
    have hcv : findClass st.1 v = c := findClass_eq_of_mem st.1 inv.disj c hc v hvc
    ext u
    simp only [Set.mem_setOf_eq]
    rw [← hcv]
    exact hclass_iff v hv u

/-- C2: the number of basic cycle paths (one per non-tree edge of the
union-find spanning forest) satisfies
`#cycles + |V| = |E| + #connected components`, i.e. it is the cyclomatic
number `|E| - |V| + #components` of the graph. -/
theorem c2_baseCyclePaths_cyclomatic (g : Graph V)
    (hV : g.vertexList.Nodup)
    (hE : ∀ e ∈ g.edgeKeys, e.1 ∈ g.vertexList ∧ e.2 ∈ g.vertexList) :
    g.baseCyclePaths.length + g.vertexList.length =
      g.edgeKeys.length + Set.ncard (componentSets g) := by
  have inv := spanningTree_inv g hV hE
  have hlen : g.baseCyclePaths.length = (g.spanningTree).2.length := by
    unfold Graph.baseCyclePaths
    rw [List.length_map]
  have h1 : (g.edgeKeys.foldl stStep (g.vertexList.map fun v => [v], [], [])).1.length +
      (g.edgeKeys.foldl stStep (g.vertexList.map fun v => [v], [], [])).2.1.length =
      g.vertexList.length := inv.count_classes
  have h2 : (g.edgeKeys.foldl stStep (g.vertexList.map fun v => [v], [], [])).2.1.length +
      (g.edgeKeys.foldl stStep (g.vertexList.map fun v => [v], [], [])).2.2.length =
      g.edgeKeys.length := inv.count_edges
  have h3 : Set.ncard (componentSets g) =
      (g.edgeKeys.foldl stStep (g.vertexList.map fun v => [v], [], [])).1.length := by
    rw [componentSets_eq_classes g _ inv]
    exact image_memset_ncard _ inv.classes_ne inv.disj
  have hst : (g.spanningTree).2.length =
      (g.edgeKeys.foldl stStep (g.vertexList.map fun v => [v], [], [])).2.2.length := rfl
  rw [hlen, hst, h3]
  omega

theorem c2_witness :
    triangleGraphEx.vertexList.Nodup ∧
      (∀ e ∈ triangleGraphEx.edgeKeys,
        e.1 ∈ triangleGraphEx.vertexList ∧ e.2 ∈ triangleGraphEx.vertexList) ∧
      triangleGraphEx.baseCyclePaths.length + triangleGraphEx.vertexList.length =
        triangleGraphEx.edgeKeys.length + Set.ncard (componentSets triangleGraphEx) :=
  ⟨by decide, by decide, c2_baseCyclePaths_cyclomatic triangleGraphEx (by decide) (by decide)⟩

/-! ### C3: decoding the edge list of a simple cycle recovers the cycle

The development characterizes the adjacency map built by `edgesToPath`, then
follows the vertex-chain loop along the cycle by induction. -/

theorem nearLookup_nil (v : V) : nearLookup ([] : List (V × List V)) v = none := rfl

theorem nearLookup_isSome_iff_mem_keys (near : List (V × List V)) (v : V) :
    (nearLookup near v).isSome ↔ v ∈ near.map Prod.fst := by
  induction near with
  | nil => simp [nearLookup]
  | cons q rest ih =>
    by_cases hq : q.1 = v
    · simp [nearLookup, List.find?_cons, hq]
    · have h1 : nearLookup (q :: rest) v = nearLookup rest v := by
        simp [nearLookup, List.find?_cons, hq]
      rw [h1, ih]
      simp only [List.map_cons, List.mem_cons]
      constructor
      · exact Or.inr
      · rintro (h | h)
        · exact absurd h.symm hq
        · exact h

theorem nearLookup_erase (near : List (V × List V)) (a v : V) :
    nearLookup (nearErase near a) v = if v = a then none else nearLookup near v := by
  induction near with
  | nil => simp [nearErase, nearLookup]
  | cons q rest ih =>
    by_cases hqa : q.1 = a
    · have h1 : nearErase (q :: rest) a = nearErase rest a := by
        simp [nearErase, hqa]
      rw [h1, ih]
      by_cases hva : v = a
      · simp [hva]
      · have hqv : ¬q.1 = v := fun h => hva (by rw [← h, hqa])
        simp [hva, nearLookup, List.find?_cons, hqv]
    · have h1 : nearErase (q :: rest) a = q :: nearErase rest a := by
        simp [nearErase, hqa]
      rw [h1]
      by_cases hqv : q.1 = v
      · have hva : ¬v = a := fun h => hqa (by rw [hqv, h])
        simp [nearLookup, List.find?_cons, hqv, hva]
      · have h2 : nearLookup (q :: nearErase rest a) v = nearLookup (nearErase rest a) v := by
          simp [nearLookup, List.find?_cons, hqv]
        have h3 : nearLookup (q :: rest) v = nearLookup rest v := by
          simp [nearLookup, List.find?_cons, hqv]
        rw [h2, h3, ih]

theorem nearErase_keys_sublist (near : List (V × List V)) (a : V) :
    ((nearErase near a).map Prod.fst).Sublist (near.map Prod.fst) :=
  List.Sublist.map Prod.fst (List.filter_sublist near)

theorem nearErase_length_of_nodup (near : List (V × List V)) (a : V)
    (hnd : (near.map Prod.fst).Nodup) (hsome : (nearLookup near a).isSome) :
    (nearErase near a).length = near.length - 1 := by
  induction near with
  | nil => simp [nearLookup] at hsome
  | cons q rest ih =>
    rw [List.map_cons, List.nodup_cons] at hnd
    by_cases hqa : q.1 = a
    · have h1 : nearErase (q :: rest) a = nearErase rest a := by
        simp [nearErase, hqa]
      have h2 : nearErase rest a = rest := by
        unfold nearErase
        refine List.filter_eq_self.mpr ?_
        intro x hx
        refine decide_eq_true ?_
        intro hxa
        apply hnd.1
        have hmem := List.mem_map_of_mem Prod.fst hx
        rw [hxa] at hmem
        rw [hqa]
        exact hmem
      rw [h1, h2]
      simp
    · have h1 : nearErase (q :: rest) a = q :: nearErase rest a := by
        simp [nearErase, hqa]
      have hsome2 : (nearLookup rest a).isSome := by
        have h3 : nearLookup (q :: rest) a = nearLookup rest a := by
          simp [nearLookup, List.find?_cons, hqa]
        rwa [h3] at hsome
      have hrest : rest ≠ [] := by
        intro h
        rw [h] at hsome2
        simp [nearLookup] at hsome2
      have hlen : 1 ≤ rest.length := by
        cases rest
        · exact absurd rfl hrest
        · simp
      rw [h1]
      simp only [List.length_cons, ih hnd.2 hsome2]
      omega

theorem nearLookup_update (near : List (V × List V)) (a : V) (b : V) (v : V) :
    nearLookup (near.map fun q => if q.1 = a then (q.1, q.2 ++ [b]) else q) v =
      if v = a then (nearLookup near a).map (fun l => l ++ [b]) else nearLookup near v := by
  induction near with
  | nil =>
    simp only [List.map_nil, nearLookup, List.find?_nil, Option.map_none]
    split <;> rfl
  | cons q rest ih =>
    by_cases hqv : q.1 = v
    · by_cases hqa : q.1 = a
      · have hva : v = a := by rw [← hqv, hqa]
        subst hva
        simp [nearLookup, List.find?_cons, hqv, hqa]
      · have hva : ¬v = a := fun h => hqa (by rw [hqv, h])
        simp [nearLookup, List.find?_cons, hqv, hqa, hva]
    · by_cases hqa : q.1 = a
      · have hhead : (if q.1 = a then (q.1, q.2 ++ [b]) else q) = (q.1, q.2 ++ [b]) := by
          rw [if_pos hqa]
        simp only [List.map_cons, hhead]
        have h1 : nearLookup ((q.1, q.2 ++ [b]) ::
            rest.map fun q => if q.1 = a then (q.1, q.2 ++ [b]) else q) v =
            nearLookup (rest.map fun q => if q.1 = a then (q.1, q.2 ++ [b]) else q) v := by
          simp [nearLookup, List.find?_cons, hqv]
        rw [h1, ih]
        by_cases hva : v = a
        · exact absurd (by rw [hqa]; exact hva.symm) hqv
        · simp only [if_neg hva]
          simp [nearLookup, List.find?_cons, hqv]
      · have hhead : (if q.1 = a then (q.1, q.2 ++ [b]) else q) = q := by
          rw [if_neg hqa]
        simp only [List.map_cons, hhead]
        have h1 : nearLookup (q ::
            rest.map fun q => if q.1 = a then (q.1, q.2 ++ [b]) else q) v =
            nearLookup (rest.map fun q => if q.1 = a then (q.1, q.2 ++ [b]) else q) v := by
          simp [nearLookup, List.find?_cons, hqv]
        rw [h1, ih]
        by_cases hva : v = a
        · subst hva
          have h2 : nearLookup (q :: rest) v = nearLookup rest v := by
            simp [nearLookup, List.find?_cons, hqv]
          rw [if_pos rfl, if_pos rfl, h2]
        · have h2 : nearLookup (q :: rest) v = nearLookup rest v := by
            simp [nearLookup, List.find?_cons, hqv]
          rw [if_neg hva, if_neg hva, h2]

theorem nearLookup_append_single (near : List (V × List V)) (a : V) (l : List V) (v : V) :
    nearLookup (near ++ [(a, l)]) v =
      if (nearLookup near v).isSome then nearLookup near v
      else if v = a then some l else none := by
  induction near with
  | nil =>
    simp only [List.nil_append]
    by_cases hva : v = a
    · subst hva
      simp [nearLookup, List.find?_cons]
    · have hneq : ¬a = v := fun h => hva h.symm
      simp [nearLookup, List.find?_cons, List.find?_nil, hneq, hva]
  | cons q rest ih =>
    by_cases hqv : q.1 = v
    · simp [nearLookup, List.find?_cons, hqv]
    · have h1 : nearLookup ((q :: rest) ++ [(a, l)]) v = nearLookup (rest ++ [(a, l)]) v := by
        simp [nearLookup, List.find?_cons, hqv]
      have h2 : nearLookup (q :: rest) v = nearLookup rest v := by
        simp [nearLookup, List.find?_cons, hqv]
      rw [h1, h2, ih]

theorem nearLookup_nearAdd (near : List (V × List V)) (a b v : V) :
    nearLookup (nearAdd near a b) v =
      if v = a then some (((nearLookup near a).getD []) ++ [b]) else nearLookup near v := by
  unfold nearAdd
  by_cases hsome : (nearLookup near a).isSome
  · rw [if_pos hsome, nearLookup_update]
    by_cases hva : v = a
    · subst hva
      obtain ⟨x, hx⟩ := Option.isSome_iff_exists.mp hsome
      rw [hx]
      simp
    · rw [if_neg hva, if_neg hva]
  · rw [if_neg hsome, nearLookup_append_single]
    rw [Option.not_isSome_iff_eq_none] at hsome
    by_cases hva : v = a
    · subst hva
      rw [hsome]
      simp
    · rw [if_neg hva, if_neg hva]
      cases hnv : nearLookup near v <;> simp [hnv]

theorem nearAdd_keys (near : List (V × List V)) (a b : V) :
    (nearAdd near a b).map Prod.fst =
      if (nearLookup near a).isSome then near.map Prod.fst
      else near.map Prod.fst ++ [a] := by
  unfold nearAdd
  by_cases hsome : (nearLookup near a).isSome
  · rw [if_pos hsome, if_pos hsome, List.map_map]
    congr 1
    funext q
    simp only [Function.comp_apply]
    split <;> rfl
  · rw [if_neg hsome, if_neg hsome]
    simp

theorem nearAdd_keys_nodup (near : List (V × List V)) (a b : V)
    (h : (near.map Prod.fst).Nodup) : ((nearAdd near a b).map Prod.fst).Nodup := by
  rw [nearAdd_keys]
  by_cases hsome : (nearLookup near a).isSome
  · rwa [if_pos hsome]
  · rw [if_neg hsome]
    rw [(List.perm_append_singleton a (near.map Prod.fst)).nodup_iff, List.nodup_cons]
    refine ⟨?_, h⟩
    rw [← nearLookup_isSome_iff_mem_keys]
    exact hsome

theorem nearFold_lookup (es : List (V × V)) :
    ∀ (acc : List (V × List V)) (v : V),
      nearLookup (es.foldl (fun n e => nearAdd (nearAdd n e.1 e.2) e.2 e.1) acc) v =
        if (nearLookup acc v).isSome ∨ partners es v ≠ [] then
          some ((nearLookup acc v).getD [] ++ partners es v)
        else none := by
  induction es with
  | nil =>
    intro acc v
    simp only [List.foldl_nil, partners, List.flatMap_nil]
    cases hacc : nearLookup acc v <;> simp [hacc]
  | cons e rest ih =>
    intro acc v
    rw [List.foldl_cons, ih]
    obtain ⟨a, b⟩ := e
    have hpart : partners ((a, b) :: rest) v =
        ((if a = v then [b] else []) ++ (if b = v then [a] else [])) ++ partners rest v := by
      simp [partners]
    rw [hpart]
    by_cases hav : v = a <;> by_cases hbv : v = b <;>
      cases hacc : nearLookup acc v <;>
        simp_all [nearLookup_nearAdd, Ne.symm]

theorem buildNear_lookup (es : List (V × V)) (v : V) :
    nearLookup (buildNear es) v =
      if partners es v ≠ [] then some (partners es v) else none := by
  unfold buildNear
  rw [nearFold_lookup]
  simp [nearLookup]

theorem nearFold_keys_nodup (es : List (V × V)) :
    ∀ acc : List (V × List V), (acc.map Prod.fst).Nodup →
      ((es.foldl (fun n e => nearAdd (nearAdd n e.1 e.2) e.2 e.1) acc).map Prod.fst).Nodup := by
  induction es with
  | nil => intro acc h; exact h
  | cons e rest ih =>
    intro acc h
    rw [List.foldl_cons]
    exact ih _ (nearAdd_keys_nodup _ _ _ (nearAdd_keys_nodup _ _ _ h))

theorem buildNear_keys_nodup (es : List (V × V)) :
    ((buildNear es).map Prod.fst).Nodup :=
  nearFold_keys_nodup es [] (by simp)

theorem buildNear_isSome (es : List (V × V)) (v : V) :
    (nearLookup (buildNear es) v).isSome ↔ partners es v ≠ [] := by
  rw [buildNear_lookup]
  split <;> simp_all

theorem buildNear_length (es : List (V × V)) (W : List V) (hW : W.Nodup)
    (hmem : ∀ v, partners es v ≠ [] ↔ v ∈ W) :
    (buildNear es).length = W.length := by
  have hkeys : ((buildNear es).map Prod.fst) ~ W := by
    rw [List.perm_ext_iff_of_nodup (buildNear_keys_nodup es) hW]
    intro v
    rw [← nearLookup_isSome_iff_mem_keys, buildNear_isSome]
    exact hmem v
  calc (buildNear es).length = ((buildNear es).map Prod.fst).length :=
        (List.length_map _ _).symm
    _ = W.length := hkeys.length_eq

theorem partners_cons (e : V × V) (es : List (V × V)) (v : V) :
    partners (e :: es) v =
      ((if e.1 = v then [e.2] else []) ++ (if e.2 = v then [e.1] else [])) ++
        partners es v := by
  simp [partners]

theorem partners_canon (es : List (V × V)) (hne : ∀ e ∈ es, e.1 ≠ e.2) (v : V) :
    partners (es.map fun e => canonPair e.1 e.2) v = partners es v := by
  induction es with
  | nil => rfl
  | cons e rest ih =>
    have hrec := ih fun d hd => hne d (List.mem_cons_of_mem _ hd)
    rw [List.map_cons, partners_cons, partners_cons, hrec]
    have hne1 := hne e (List.mem_cons_self _ _)
    unfold canonPair
    by_cases hgt : e.1 > e.2
    · rw [if_pos hgt]
      by_cases h1 : e.1 = v <;> by_cases h2 : e.2 = v <;> simp_all
    · rw [if_neg hgt]

theorem zipChain_ne (t : List V) (z : V) (hnd : t.Nodup)
    (hz : ∀ h : t ≠ [], z ≠ t.getLast h) :
    ∀ p ∈ t.zip (t.tail ++ [z]), p.1 ≠ p.2 := by
  induction t with
  | nil => intro p hp; simp at hp
  | cons a t2 ih =>
    intro p hp
    cases t2 with
    | nil =>
      simp only [List.tail_cons, List.nil_append, List.zip_cons_cons, List.zip_nil_left,
        List.mem_singleton] at hp
      subst hp
      intro h
      exact hz (by simp) (Eq.symm h)
    | cons b s =>
      simp only [List.tail_cons, List.cons_append, List.zip_cons_cons, List.mem_cons] at hp
      rcases hp with rfl | hp
      · intro h
        rw [List.nodup_cons, List.mem_cons] at hnd
        exact hnd.1 (Or.inl h)
      · refine ih (List.nodup_cons.mp hnd).2 ?_ p ?_
        · intro h hlast
          refine hz (by simp) ?_
          rw [List.getLast_cons (by simp)]
          exact hlast
        · simpa using hp

theorem partners_chain (t : List V) (x : V) (hx : x ∉ t) :
    partners (t.zip (t.tail ++ [x])) x = t.getLast?.toList := by
  induction t with
  | nil => rfl
  | cons a t2 ih =>
    rw [List.mem_cons, not_or] at hx
    cases t2 with
    | nil =>
      rw [List.tail_cons, List.nil_append, List.zip_cons_cons, List.zip_nil_left,
        partners_cons]
      simp [partners, Ne.symm hx.1]
    | cons b s =>
      rw [List.tail_cons, List.cons_append, List.zip_cons_cons, partners_cons]
      have hax : ¬a = x := fun h => hx.1 h.symm
      have hbx : ¬b = x := by
        intro h
        exact hx.2 (h ▸ List.mem_cons_self b s)
      rw [if_neg hax, if_neg hbx]
      simp only [List.nil_append, List.append_nil]
      have ih2 := ih hx.2
      rw [List.tail_cons] at ih2
      rw [ih2, List.getLast?_cons_cons]

theorem rotate_one_cons (x : V) (t : List V) : (x :: t).rotate 1 = t ++ [x] := by
  rw [List.rotate_cons_succ, List.rotate_zero]

theorem partners_head (g : Graph V) (x y : V) (s : List V)
    (hnd : (x :: y :: s).Nodup) :
    partners (g.pathToEdges (x :: y :: s)) x =
      [y, (y :: s).getLast (by simp)] := by
  have hx : x ∉ y :: s := (List.nodup_cons.mp hnd).1
  have hlast : ∀ h : (x :: y :: s) ≠ [], x ≠ (x :: y :: s).getLast h := by
    intro h heq
    refine hx ?_
    rw [List.getLast_cons (by simp)] at heq
    rw [heq]
    exact List.getLast_mem _
  have hzc := zipChain_ne (x :: y :: s) x hnd hlast
  rw [List.tail_cons] at hzc
  unfold Graph.pathToEdges
  have hcp : cyclePairs (x :: y :: s) = (x :: y :: s).zip ((y :: s) ++ [x]) := by
    unfold cyclePairs
    rw [rotate_one_cons]
  rw [hcp, partners_canon _ hzc x]
  have hdecomp : (x :: y :: s).zip ((y :: s) ++ [x]) =
      (x, y) :: ((y :: s).zip (s ++ [x])) := by
    rw [List.cons_append, List.zip_cons_cons]
  rw [hdecomp, partners_cons]
  have hyx : ¬y = x := by
    intro h
    exact (List.nodup_cons.mp hnd).1 (h ▸ List.mem_cons_self y s)
  rw [if_pos rfl, if_neg hyx]
  have hchain := partners_chain (y :: s) x (List.nodup_cons.mp hnd).1
  rw [List.tail_cons] at hchain
  rw [List.append_nil, hchain, List.getLast?_eq_getLast _ (by simp)]
  rfl

theorem get_idx_congr {α : Type} (l : List α) {i j : ℕ} (hi : i < l.length)
    (h : i = j) : l.get ⟨i, hi⟩ = l.get ⟨j, h ▸ hi⟩ := by
  subst h
  rfl

theorem pathToEdges_rotate (g : Graph V) (c : List V) (i : ℕ) :
    g.pathToEdges (c.rotate i) = (g.pathToEdges c).rotate i := by
  unfold Graph.pathToEdges
  rw [cyclePairs_rotate, List.map_rotate]

theorem partners_rotate_perm (es : List (V × V)) (i : ℕ) (v : V) :
    partners (es.rotate i) v ~ partners es v := by
  unfold partners
  exact List.Perm.flatMap_right _ (es.rotate_perm i)

theorem partners_get (g : Graph V) (c : List V) (hnd : c.Nodup) (hlen : 2 ≤ c.length)
    (i : ℕ) (hi : i < c.length) :
    partners (g.pathToEdges c) (c.get ⟨i, hi⟩) ~
      [c.get ⟨(i + 1) % c.length, Nat.mod_lt _ (by omega)⟩,
       c.get ⟨(i + c.length - 1) % c.length, Nat.mod_lt _ (by omega)⟩] := by
  have hn0 : 0 < c.length := by omega
  have hnd2 : (c.rotate i).Nodup := List.nodup_rotate.mpr hnd
  have hlenr : (c.rotate i).length = c.length := List.length_rotate c i
  obtain ⟨x, y, s, hxyz⟩ : ∃ x y s, c.rotate i = x :: y :: s := by
    cases hr : c.rotate i with
    | nil =>
      rw [hr] at hlenr
      simp at hlenr
      omega
    | cons x t =>
      cases t with
      | nil =>
        rw [hr] at hlenr
        simp at hlenr
        omega
      | cons y s => exact ⟨x, y, s, rfl⟩
  have h0 : getElem? (c.rotate i) 0 = getElem? c ((0 + i) % c.length) :=
    List.getElem?_rotate (by omega)
  have h1 : getElem? (c.rotate i) 1 = getElem? c ((1 + i) % c.length) :=
    List.getElem?_rotate (by omega)
  have h2 : getElem? (c.rotate i) (c.length - 1) =
      getElem? c ((c.length - 1 + i) % c.length) :=
    List.getElem?_rotate (by omega)
  rw [hxyz] at h0 h1 h2
  have hxi : c.get ⟨i, hi⟩ = x := by
    have hmod : (0 + i) % c.length = i := by
      rw [Nat.zero_add, Nat.mod_eq_of_lt hi]
    rw [hmod] at h0
    have hsome : getElem? c i = some (c.get ⟨i, hi⟩) := by
      rw [List.getElem?_eq_getElem hi, List.get_eq_getElem]
    rw [hsome] at h0
    simp only [List.getElem?_cons_zero] at h0
    exact (Option.some.inj h0).symm
  have hyi : y = c.get ⟨(i + 1) % c.length, Nat.mod_lt _ (by omega)⟩ := by
    have hsome : getElem? c ((1 + i) % c.length) =
        some (c.get ⟨(1 + i) % c.length, Nat.mod_lt _ (by omega)⟩) := by
      rw [List.getElem?_eq_getElem (Nat.mod_lt _ (by omega)), List.get_eq_getElem]
    rw [hsome] at h1
    simp only [List.getElem?_cons_succ, List.getElem?_cons_zero] at h1
    have hidx : (1 + i) % c.length = (i + 1) % c.length := by
      rw [Nat.add_comm]
    exact (Option.some.inj h1).trans (get_idx_congr c _ hidx)
  have hlasti : (y :: s).getLast (by simp) =
      c.get ⟨(i + c.length - 1) % c.length, Nat.mod_lt _ (by omega)⟩ := by
    have hgl : (x :: y :: s).getLast? = some ((y :: s).getLast (by simp)) := by
      rw [List.getLast?_cons_cons, List.getLast?_eq_getLast _ (by simp)]
    have hgl2 : (x :: y :: s).getLast? =
        getElem? (x :: y :: s) ((x :: y :: s).length - 1) :=
      List.getLast?_eq_getElem? _
    have hlen3 : (x :: y :: s).length = c.length := by
      rw [← hxyz]
      exact hlenr
    rw [hlen3] at hgl2
    rw [hgl2, h2] at hgl
    have hidx : (c.length - 1 + i) % c.length = (i + c.length - 1) % c.length := by
      have heq2 : c.length - 1 + i = i + c.length - 1 := by omega
      rw [heq2]
    rw [hidx] at hgl
    have hsome : getElem? c ((i + c.length - 1) % c.length) =
        some (c.get ⟨(i + c.length - 1) % c.length, Nat.mod_lt _ (by omega)⟩) := by
      rw [List.getElem?_eq_getElem (Nat.mod_lt _ (by omega)), List.get_eq_getElem]
    rw [hsome] at hgl
    exact (Option.some.inj hgl).symm
  have hperm1 : partners (g.pathToEdges c) (c.get ⟨i, hi⟩) ~
      partners (g.pathToEdges (c.rotate i)) (c.get ⟨i, hi⟩) := by
    rw [pathToEdges_rotate]
    exact (partners_rotate_perm _ i _).symm
  have hstep : partners (g.pathToEdges (c.rotate i)) (c.get ⟨i, hi⟩) =
      [y, (y :: s).getLast (by simp)] := by
    rw [hxyz, hxi]
    exact partners_head g x y s (hxyz ▸ hnd2)
  calc partners (g.pathToEdges c) (c.get ⟨i, hi⟩)
      ~ partners (g.pathToEdges (c.rotate i)) (c.get ⟨i, hi⟩) := hperm1
    _ = [y, (y :: s).getLast (by simp)] := hstep
    _ = [c.get ⟨(i + 1) % c.length, Nat.mod_lt _ (by omega)⟩,
         c.get ⟨(i + c.length - 1) % c.length, Nat.mod_lt _ (by omega)⟩] := by
        rw [← hyi, ← hlasti]

theorem get_idx_congr2 {α : Type} (l : List α) {i j : ℕ} (hi : i < l.length)
    (hj : j < l.length) (h : i = j) : l.get ⟨i, hi⟩ = l.get ⟨j, hj⟩ := by
  subst h
  rfl

theorem perm_pair {α : Type} (l : List α) (x y : α) (h : l ~ [x, y]) :
    l = [x, y] ∨ l = [y, x] := by
  have hlen := h.length_eq
  match l, hlen with
  | [a, b], _ =>
    have hmem : a ∈ [x, y] := h.mem_iff.mp (List.mem_cons_self a [b])
    rw [List.mem_cons, List.mem_singleton] at hmem
    rcases hmem with rfl | rfl
    · left
      have hb := (h.cons_inv).mem_iff.mp (List.mem_singleton.mpr rfl)
      rw [List.mem_singleton] at hb
      rw [hb]
    · right
      have h2 : [a, b] ~ [a, x] := h.trans (List.Perm.swap a x [])
      have hb := (h2.cons_inv).mem_iff.mp (List.mem_singleton.mpr rfl)
      rw [List.mem_singleton] at hb
      rw [hb]

theorem take_cons_get {α : Type} (W : List α) (k : ℕ) (hk : k < W.length) :
    W.take (k + 1) = W.take k ++ [W.get ⟨k, hk⟩] := by
  rw [List.get_eq_getElem]
  exact (List.take_concat_get' W k hk).symm

theorem take_succ_reverse_cons {α : Type} (W : List α) (k : ℕ) (hk : k < W.length) :
    (W.take (k + 1)).reverse = W.get ⟨k, hk⟩ :: (W.take k).reverse := by
  rw [take_cons_get W k hk, List.reverse_append]
  rfl

theorem mem_take_succ_iff {α : Type} (W : List α) (k : ℕ) (hk : k < W.length) (v : α) :
    v ∈ W.take (k + 1) ↔ v ∈ W.take k ∨ v = W.get ⟨k, hk⟩ := by
  rw [take_cons_get W k hk, List.mem_append, List.mem_singleton]

theorem get_mem_take {α : Type} (W : List α) (i k : ℕ) (hi : i < W.length)
    (hik : i < k) : W.get ⟨i, hi⟩ ∈ W.take k := by
  induction k generalizing i with
  | zero => omega
  | succ k2 ih =>
    by_cases hk2 : k2 < W.length
    · rw [mem_take_succ_iff W k2 hk2]
      by_cases hik2 : i < k2
      · exact Or.inl (ih i hi hik2)
      · have : i = k2 := by omega
        exact Or.inr (get_idx_congr2 W hi hk2 this)
    · have htk : W.take (k2 + 1) = W := by
        apply List.take_of_length_le
        omega
      rw [htk]
      exact List.get_mem W i hi

theorem get_not_mem_take {α : Type} (W : List α) (hW : W.Nodup) (i k : ℕ)
    (hi : i < W.length) (hk : k ≤ i) : W.get ⟨i, hi⟩ ∉ W.take k := by
  intro hmem
  obtain ⟨⟨jv, hjv⟩, hjeq⟩ := List.mem_iff_get.mp hmem
  have hjv2 : jv < min k W.length := by
    have h3 := hjv
    rwa [List.length_take] at h3
  have hjlt : jv < W.length := lt_of_lt_of_le hjv2 (min_le_right _ _)
  have hjk : jv < k := lt_of_lt_of_le hjv2 (min_le_left _ _)
  have hgt : (W.take k).get ⟨jv, hjv⟩ = W.get ⟨jv, hjlt⟩ := by
    simp [List.get_eq_getElem, List.getElem_take]
  rw [hgt] at hjeq
  have heq := hW.get_inj_iff.mp hjeq
  have hji : jv = i := congrArg Fin.val heq
  omega
/-- One unfolding of the chain walk at positive fuel. -/
theorem walk_succ (fuel : ℕ) (near : List (V × List V)) (rp : List V) :
    walk (fuel + 1) near rp =
      if near.length ≤ 1 then some rp.reverse
      else
        match rp with
        | [] => none
        | last :: _ =>
          match nearLookup near last with
          | none => none
          | some abuts =>
            match abuts with
            | [] => none
            | a :: rest =>
              if (nearLookup (nearErase near last) a).isSome then
                walk fuel (nearErase near last) (a :: rp)
              else
                match rest with
                | [] => none
                | b :: _ => walk fuel (nearErase near last) (b :: rp) := rfl

/-- One loop iteration of the chain walk when the endpoint has exactly two
recorded neighbors: step to the first if it is still in the map, otherwise to
the second. -/
theorem walk_step (fuel : ℕ) (near : List (V × List V)) (last : V) (tl : List V)
    (a b : V) (hgt : ¬near.length ≤ 1)
    (hl : nearLookup near last = some [a, b]) :
    walk (fuel + 1) near (last :: tl) =
      if (nearLookup (nearErase near last) a).isSome then
        walk fuel (nearErase near last) (a :: last :: tl)
      else walk fuel (nearErase near last) (b :: last :: tl) := by
  rw [walk_succ, if_neg hgt]
  show (match nearLookup near last with
    | none => none
    | some abuts =>
      match abuts with
      | [] => none
      | a :: rest =>
        if (nearLookup (nearErase near last) a).isSome then
          walk fuel (nearErase near last) (a :: last :: tl)
        else
          match rest with
          | [] => none
          | b :: _ => walk fuel (nearErase near last) (b :: last :: tl)) =
      if (nearLookup (nearErase near last) a).isSome then
        walk fuel (nearErase near last) (a :: last :: tl)
      else walk fuel (nearErase near last) (b :: last :: tl)
  rw [hl]

/-- The chain-walk loop of `edgesToPath` follows the vertex order `W` to the
end: from the state in which the first `k` vertices of `W` are already on the
path (in reverse) and the keys strictly before the current endpoint have been
deleted, the loop appends the remaining vertices of `W` in order and returns
`W`. -/
theorem walk_spec (W : List V) (hW : W.Nodup) (hn : 3 ≤ W.length) :
    ∀ (fuel k : ℕ) (near : List (V × List V)),
      2 ≤ k → k ≤ W.length → W.length - k < fuel →
      (near.map Prod.fst).Nodup →
      near.length = W.length - (k - 1) →
      (∀ v, (nearLookup near v).isSome ↔ v ∈ W ∧ v ∉ W.take (k - 1)) →
      (∀ (i : ℕ) (hi : i < W.length), k - 1 ≤ i →
        ∃ l, nearLookup near (W.get ⟨i, hi⟩) = some l ∧
          l ~ [W.get ⟨(i + 1) % W.length, Nat.mod_lt _ (by omega)⟩,
               W.get ⟨(i + W.length - 1) % W.length, Nat.mod_lt _ (by omega)⟩]) →
      walk fuel near ((W.take k).reverse) = some W := by
  intro fuel
  induction fuel with
  | zero =>
    intro k near hk2 hkn hfuel hknd hlen hdom hval
    omega
  | succ fuel ih =>
    intro k near hk2 hkn hfuel hknd hlen hdom hval
    by_cases hkeq : k = W.length
    · rw [walk_succ, if_pos (by omega), hkeq, List.take_of_length_le (le_refl _),
        List.reverse_reverse]
    · have hklt : k < W.length := lt_of_le_of_ne hkn hkeq
      have hgt : ¬near.length ≤ 1 := by omega
      have hk1 : k - 1 < W.length := by omega
      have hrp : (W.take k).reverse = W.get ⟨k - 1, hk1⟩ :: (W.take (k - 1)).reverse := by
        have h := take_succ_reverse_cons W (k - 1) hk1
        rw [show k - 1 + 1 = k from by omega] at h
        exact h
      obtain ⟨l, hl, hlperm⟩ := hval (k - 1) hk1 (le_refl _)
      have hkk : k - 2 < W.length := by omega
      have hidx1 : (k - 1 + 1) % W.length = k := by
        rw [show k - 1 + 1 = k from by omega]
        exact Nat.mod_eq_of_lt hklt
      have hidx2 : (k - 1 + W.length - 1) % W.length = k - 2 := by
        rw [show k - 1 + W.length - 1 = k - 2 + W.length from by omega,
          Nat.add_mod_right]
        exact Nat.mod_eq_of_lt (by omega)
      have hlp2 : l ~ [W.get ⟨k, hklt⟩, W.get ⟨k - 2, hkk⟩] := by
        refine hlperm.trans ?_
        rw [get_idx_congr2 W _ hklt hidx1, get_idx_congr2 W _ hkk hidx2]
      -- the vertex currently at the end of the path, and its two neighbors
      have hlast_some : (nearLookup near (W.get ⟨k - 1, hk1⟩)).isSome := by
        rw [hl]; rfl
      -- state facts after the deletion of the endpoint
      have hknd' : (((nearErase near (W.get ⟨k - 1, hk1⟩)).map Prod.fst)).Nodup :=
        hknd.sublist (nearErase_keys_sublist near _)
      have hlen' : (nearErase near (W.get ⟨k - 1, hk1⟩)).length = W.length - k := by
        rw [nearErase_length_of_nodup near _ hknd hlast_some, hlen]
        omega
      have hdom' : ∀ v, (nearLookup (nearErase near (W.get ⟨k - 1, hk1⟩)) v).isSome ↔
          v ∈ W ∧ v ∉ W.take k := by
        intro v
        rw [nearLookup_erase]
        by_cases hv : v = W.get ⟨k - 1, hk1⟩
        · rw [if_pos hv]
          simp only [Option.isSome_none, Bool.false_eq_true, false_iff, not_and, not_not]
          intro hvW
          rw [hv]
          exact get_mem_take W (k - 1) k hk1 (by omega)
        · rw [if_neg hv, hdom v]
          have hmt := mem_take_succ_iff W (k - 1) hk1 v
          rw [show k - 1 + 1 = k from by omega] at hmt
          constructor
          · rintro ⟨hvW, hvnt⟩
            refine ⟨hvW, ?_⟩
            rw [hmt]
            rintro (h | h)
            · exact hvnt h
            · exact hv h
          · rintro ⟨hvW, hvnt⟩
            refine ⟨hvW, fun h => hvnt ?_⟩
            rw [hmt]
            exact Or.inl h
      have hval' : ∀ (i : ℕ) (hi : i < W.length), k ≤ i →
          ∃ l2, nearLookup (nearErase near (W.get ⟨k - 1, hk1⟩)) (W.get ⟨i, hi⟩) = some l2 ∧
            l2 ~ [W.get ⟨(i + 1) % W.length, Nat.mod_lt _ (by omega)⟩,
                 W.get ⟨(i + W.length - 1) % W.length, Nat.mod_lt _ (by omega)⟩] := by
        intro i hi hik
        have hne : ¬W.get ⟨i, hi⟩ = W.get ⟨k - 1, hk1⟩ := by
          intro h
          have := hW.get_inj_iff.mp h
          have hvi : i = k - 1 := congrArg Fin.val this
          omega
        rw [nearLookup_erase, if_neg hne]
        exact hval i hi (by omega)
      -- membership facts for the two neighbors
      have hnx_some : (nearLookup (nearErase near (W.get ⟨k - 1, hk1⟩))
          (W.get ⟨k, hklt⟩)).isSome := by
        rw [hdom' _]
        exact ⟨List.get_mem W k hklt, get_not_mem_take W hW k k hklt (le_refl _)⟩
      have hpv_none : ¬(nearLookup (nearErase near (W.get ⟨k - 1, hk1⟩))
          (W.get ⟨k - 2, hkk⟩)).isSome := by
        rw [hdom' _]
        rintro ⟨-, hnt⟩
        exact hnt (get_mem_take W (k - 2) k hkk (by omega))
      -- the recursive call lands on the next stage of the invariant
      have hrec : walk fuel (nearErase near (W.get ⟨k - 1, hk1⟩))
          (W.get ⟨k, hklt⟩ :: W.get ⟨k - 1, hk1⟩ :: (W.take (k - 1)).reverse) = some W := by
        have hsh : W.get ⟨k, hklt⟩ :: W.get ⟨k - 1, hk1⟩ :: (W.take (k - 1)).reverse =
            (W.take (k + 1)).reverse := by
          rw [take_succ_reverse_cons W k hklt, hrp]
        rw [hsh]
        exact ih (k + 1) _ (by omega) (by omega) (by omega) hknd' hlen' hdom' hval'
      rcases perm_pair l _ _ hlp2 with hcase | hcase
      · subst hcase
        rw [hrp, walk_step fuel near _ _ _ _ hgt hl, if_pos hnx_some]
        exact hrec
      · subst hcase
        rw [hrp, walk_step fuel near _ _ _ _ hgt hl, if_neg hpv_none]
        exact hrec

/-- Indexing into a rotation reads the original list at the shifted index. -/
theorem get_rotate (c : List V) (m j : ℕ) (hj : j < c.length)
    (hjr : j < (c.rotate m).length) :
    (c.rotate m).get ⟨j, hjr⟩ = c.get ⟨(j + m) % c.length, Nat.mod_lt _ (by omega)⟩ := by
  have h : getElem? (c.rotate m) j = getElem? c ((j + m) % c.length) :=
    List.getElem?_rotate hj
  have h1 : getElem? (c.rotate m) j = some ((c.rotate m).get ⟨j, hjr⟩) := by
    rw [List.getElem?_eq_getElem hjr, List.get_eq_getElem]
  have h2 : getElem? c ((j + m) % c.length) =
      some (c.get ⟨(j + m) % c.length, Nat.mod_lt _ (by omega)⟩) := by
    rw [List.getElem?_eq_getElem (Nat.mod_lt _ (by omega)), List.get_eq_getElem]
  rw [h1, h2] at h
  exact Option.some.inj h

/-- Indexing into a reversal reads the original list at the mirrored index. -/
theorem get_reverse {α : Type} (c : List α) (j : ℕ) (hj : j < c.reverse.length)
    (hj2 : c.length - 1 - j < c.length) :
    c.reverse.get ⟨j, hj⟩ = c.get ⟨c.length - 1 - j, hj2⟩ := by
  rw [List.get_eq_getElem, List.get_eq_getElem, List.getElem_reverse]

/-- Indexing into a rotated reversal, composed. -/
theorem get_reverse_rotate (c : List V) (t j : ℕ) (hj : j < c.length)
    (hjr : j < ((c.reverse).rotate t).length)
    (hres : c.length - 1 - ((j + t) % c.length) < c.length) :
    ((c.reverse).rotate t).get ⟨j, hjr⟩ =
      c.get ⟨c.length - 1 - ((j + t) % c.length), hres⟩ := by
  have hb : j < c.reverse.length := by rw [List.length_reverse]; exact hj
  have h1 := get_rotate c.reverse t j hb hjr
  have hb2 : (j + t) % c.reverse.length < c.reverse.length := Nat.mod_lt _ (by omega)
  have hb3 : c.length - 1 - ((j + t) % c.reverse.length) < c.length := by omega
  have h2 := get_reverse c ((j + t) % c.reverse.length) hb2 hb3
  refine h1.trans (h2.trans ?_)
  refine get_idx_congr2 c _ _ ?_
  rw [List.length_reverse]

/-- A vertex with a nonempty partner list is an endpoint of some edge. -/
theorem partners_ne_nil_mem (es : List (V × V)) (v : V)
    (h : partners es v ≠ []) : ∃ e ∈ es, e.1 = v ∨ e.2 = v := by
  by_contra hno
  push_neg at hno
  apply h
  unfold partners
  refine List.flatMap_eq_nil_iff.mpr ?_
  intro e he
  obtain ⟨h1, h2⟩ := hno e he
  rw [if_neg h1, if_neg h2]
  rfl

/-- Both endpoints of every canonical cycle edge lie on the cycle. -/
theorem pathToEdges_endpoints (g : Graph V) (c : List V) :
    ∀ e ∈ g.pathToEdges c, e.1 ∈ c ∧ e.2 ∈ c := by
  intro e he
  unfold Graph.pathToEdges at he
  rw [List.mem_map] at he
  obtain ⟨uv, huv, rfl⟩ := he
  obtain ⟨u, v⟩ := uv
  unfold cyclePairs at huv
  have hm := List.mem_zip huv
  have hu : u ∈ c := hm.1
  have hv : v ∈ c := List.mem_rotate.mp hm.2
  unfold canonPair
  by_cases hgt : u > v
  · rw [if_pos hgt]
    exact ⟨hv, hu⟩
  · rw [if_neg hgt]
    exact ⟨hu, hv⟩

/-- The running minimum of `edgesToPath` stays among the cycle's vertices. -/
theorem foldl_min_mem (es : List (V × V)) (S : List V)
    (hS : ∀ e ∈ es, e.1 ∈ S ∧ e.2 ∈ S) :
    ∀ m ∈ S, es.foldl (fun m e => min (min m e.1) e.2) m ∈ S := by
  induction es with
  | nil => intro m hm; exact hm
  | cons e rest ih =>
    intro m hm
    rw [List.foldl_cons]
    refine ih (fun d hd => hS d (List.mem_cons_of_mem _ hd)) _ ?_
    obtain ⟨h1, h2⟩ := hS e (List.mem_cons_self _ _)
    rcases min_choice (min m e.1) e.2 with h | h
    · rw [h]
      rcases min_choice m e.1 with h3 | h3 <;> rw [h3]
      · exact hm
      · exact h1
    · rw [h]
      exact h2

/-- The length of the canonical edge list equals the cycle length. -/
theorem pathToEdges_length (g : Graph V) (c : List V) :
    (g.pathToEdges c).length = c.length := by
  unfold Graph.pathToEdges cyclePairs
  rw [List.length_map, List.length_zip, List.length_rotate]
  exact min_self _

/-- The neighbor structure of a cyclic vertex order: the partner list of each
vertex of `W` is its two cyclic neighbors, in some order. -/
def NbrProp (es : List (V × V)) (W : List V) : Prop :=
  ∀ (i : ℕ) (hi : i < W.length),
    partners es (W.get ⟨i, hi⟩) ~
      [W.get ⟨(i + 1) % W.length, Nat.mod_lt _ (by omega)⟩,
       W.get ⟨(i + W.length - 1) % W.length, Nat.mod_lt _ (by omega)⟩]

theorem nbrProp_pathToEdges (g : Graph V) (c : List V) (hnd : c.Nodup)
    (hlen : 2 ≤ c.length) : NbrProp (g.pathToEdges c) c :=
  fun i hi => partners_get g c hnd hlen i hi

/-- The neighbor structure is stable under rotating the reference order. -/
theorem nbrProp_rotate (es : List (V × V)) (c : List V) (m : ℕ)
    (h : NbrProp es c) : NbrProp es (c.rotate m) := by
  intro j hj
  have hlr : (c.rotate m).length = c.length := List.length_rotate c m
  have hj2 : j < c.length := by rw [← hlr]; exact hj
  have hn : 0 < c.length := by omega
  have h0 : (c.rotate m).get ⟨j, hj⟩ = c.get ⟨(j + m) % c.length, Nat.mod_lt _ hn⟩ :=
    get_rotate c m j hj2 hj
  have hsrc := h ((j + m) % c.length) (Nat.mod_lt _ hn)
  have hq1 : (j + 1) % (c.rotate m).length < c.length := by
    rw [hlr]; exact Nat.mod_lt _ hn
  have ht1 : (c.rotate m).get ⟨(j + 1) % (c.rotate m).length, Nat.mod_lt _ (by omega)⟩ =
      c.get ⟨((j + m) % c.length + 1) % c.length, Nat.mod_lt _ hn⟩ := by
    refine (get_rotate c m _ hq1 _).trans ?_
    refine get_idx_congr2 c _ _ ?_
    rw [hlr, Nat.mod_add_mod, Nat.mod_add_mod,
      show j + 1 + m = j + m + 1 from by omega]
  have hq2 : (j + (c.rotate m).length - 1) % (c.rotate m).length < c.length := by
    rw [hlr]; exact Nat.mod_lt _ hn
  have ht2 : (c.rotate m).get
      ⟨(j + (c.rotate m).length - 1) % (c.rotate m).length, Nat.mod_lt _ (by omega)⟩ =
      c.get ⟨((j + m) % c.length + c.length - 1) % c.length, Nat.mod_lt _ hn⟩ := by
    refine (get_rotate c m _ hq2 _).trans ?_
    refine get_idx_congr2 c _ _ ?_
    rw [hlr, show j + c.length - 1 = j + (c.length - 1) from by omega,
      show (j + m) % c.length + c.length - 1 =
        (j + m) % c.length + (c.length - 1) from by omega,
      Nat.mod_add_mod, Nat.mod_add_mod,
      show j + (c.length - 1) + m = j + m + (c.length - 1) from by omega]
  rw [h0, ht1, ht2]
  exact hsrc

/-- The neighbor structure is stable under reversing the reference order
(the two neighbors swap places). -/
theorem nbrProp_reverse (es : List (V × V)) (c : List V) (hn : 1 ≤ c.length)
    (h : NbrProp es c) : NbrProp es c.reverse := by
  intro j hj
  have hlr : c.reverse.length = c.length := List.length_reverse c
  have hj2 : j < c.length := by rw [← hlr]; exact hj
  have hn0 : 0 < c.length := hn
  have hi' : c.length - 1 - j < c.length := by omega
  have h0 : c.reverse.get ⟨j, hj⟩ = c.get ⟨c.length - 1 - j, hi'⟩ := get_reverse c j hj hi'
  have hsrc := h (c.length - 1 - j) hi'
  have hq1' : c.length - 1 - ((j + 1) % c.reverse.length) < c.length := by omega
  have ht1 : c.reverse.get ⟨(j + 1) % c.reverse.length, Nat.mod_lt _ (by omega)⟩ =
      c.get ⟨c.length - 1 - ((j + 1) % c.reverse.length), hq1'⟩ :=
    get_reverse c ((j + 1) % c.reverse.length) (Nat.mod_lt _ (by omega)) hq1'
  have hq2' : c.length - 1 - ((j + c.reverse.length - 1) % c.reverse.length) <
      c.length := by omega
  have ht2 : c.reverse.get
      ⟨(j + c.reverse.length - 1) % c.reverse.length, Nat.mod_lt _ (by omega)⟩ =
      c.get ⟨c.length - 1 - ((j + c.reverse.length - 1) % c.reverse.length), hq2'⟩ :=
    get_reverse c ((j + c.reverse.length - 1) % c.reverse.length)
      (Nat.mod_lt _ (by omega)) hq2'
  have hXB : c.length - 1 - ((j + 1) % c.reverse.length) =
      (c.length - 1 - j + c.length - 1) % c.length := by
    rw [hlr]
    by_cases hje : j = c.length - 1
    · subst hje
      rw [show c.length - 1 + 1 = c.length from by omega, Nat.mod_self,
        show c.length - 1 - (c.length - 1) + c.length - 1 = c.length - 1 from by omega,
        Nat.mod_eq_of_lt (by omega)]
      omega
    · rw [Nat.mod_eq_of_lt (show j + 1 < c.length from by omega),
        show c.length - 1 - j + c.length - 1 = c.length - 2 - j + c.length from by omega,
        Nat.add_mod_right, Nat.mod_eq_of_lt (by omega)]
      omega
  have hYA : c.length - 1 - ((j + c.reverse.length - 1) % c.reverse.length) =
      (c.length - 1 - j + 1) % c.length := by
    rw [hlr]
    by_cases hj0 : j = 0
    · subst hj0
      rw [show 0 + c.length - 1 = c.length - 1 from by omega,
        Nat.mod_eq_of_lt (by omega),
        show c.length - 1 - 0 + 1 = c.length from by omega, Nat.mod_self]
      omega
    · rw [show j + c.length - 1 = j - 1 + c.length from by omega, Nat.add_mod_right,
        Nat.mod_eq_of_lt (by omega),
        show c.length - 1 - j + 1 = c.length - j from by omega,
        Nat.mod_eq_of_lt (by omega)]
      omega
  rw [h0, ht1, ht2, get_idx_congr2 c hq1' (Nat.mod_lt _ hn0) hXB,
    get_idx_congr2 c hq2' (Nat.mod_lt _ hn0) hYA]
  exact hsrc.trans (List.Perm.swap _ _ [])

theorem take_two_reverse {α : Type} (W : List α) (h0 : 0 < W.length) (h1 : 1 < W.length) :
    (W.take 2).reverse = [W.get ⟨1, h1⟩, W.get ⟨0, h0⟩] := by
  have h := take_succ_reverse_cons W 1 h1
  rw [show (1 : ℕ) + 1 = 2 from rfl] at h
  have h2 := take_succ_reverse_cons W 0 h0
  rw [show (0 : ℕ) + 1 = 1 from rfl] at h2
  rw [h, h2]
  rfl

/-- Starting from the full adjacency map of a single cyclic order `W` whose
first recorded neighbor of the start vertex is `W`'s second vertex, the walk
of `edgesToPath` returns exactly `W`. -/
theorem edgesToPath_walk_spec (es : List (V × V)) (W : List V) (hW : W.Nodup)
    (hn : 3 ≤ W.length)
    (hmem : ∀ v, partners es v ≠ [] ↔ v ∈ W)
    (hnbr : NbrProp es W)
    (hhead : partners es (W.get ⟨0, by omega⟩) =
      [W.get ⟨1, by omega⟩, W.get ⟨W.length - 1, by omega⟩]) :
    walk ((buildNear es).length + 1) (buildNear es) [W.get ⟨0, by omega⟩] = some W := by
  have h03 : 0 < W.length := by omega
  have h13 : 1 < W.length := by omega
  have hlast3 : W.length - 1 < W.length := by omega
  have hlen0 : (buildNear es).length = W.length := buildNear_length es W hW hmem
  have hgt0 : ¬(buildNear es).length ≤ 1 := by omega
  have hpne0 : partners es (W.get ⟨0, h03⟩) ≠ [] := by
    rw [hhead]
    simp
  have hl0 : nearLookup (buildNear es) (W.get ⟨0, h03⟩) =
      some [W.get ⟨1, h13⟩, W.get ⟨W.length - 1, hlast3⟩] := by
    rw [buildNear_lookup, if_pos hpne0, hhead]
  rw [walk_step ((buildNear es).length) (buildNear es) _ _ _ _ hgt0 hl0]
  have hne10 : ¬W.get ⟨1, h13⟩ = W.get ⟨0, h03⟩ := by
    intro h
    have h2 := hW.get_inj_iff.mp h
    have h3 : (1 : ℕ) = 0 := congrArg Fin.val h2
    omega
  have hsome1 : (nearLookup (nearErase (buildNear es) (W.get ⟨0, h03⟩))
      (W.get ⟨1, h13⟩)).isSome := by
    rw [nearLookup_erase, if_neg hne10, buildNear_isSome, hmem]
    exact List.get_mem W 1 h13
  rw [if_pos hsome1]
  have hknd2 : ((nearErase (buildNear es) (W.get ⟨0, h03⟩)).map Prod.fst).Nodup :=
    (buildNear_keys_nodup es).sublist (nearErase_keys_sublist _ _)
  have hsome0 : (nearLookup (buildNear es) (W.get ⟨0, h03⟩)).isSome := by
    rw [hl0]
    rfl
  have hlen2 : (nearErase (buildNear es) (W.get ⟨0, h03⟩)).length = W.length - 1 := by
    rw [nearErase_length_of_nodup _ _ (buildNear_keys_nodup es) hsome0, hlen0]
  have htake1 : ∀ v : V, v ∈ W.take 1 ↔ v = W.get ⟨0, h03⟩ := by
    intro v
    have h := mem_take_succ_iff W 0 h03 v
    rw [show (0 : ℕ) + 1 = 1 from rfl] at h
    rw [h]
    simp
  have hdom2 : ∀ v, (nearLookup (nearErase (buildNear es) (W.get ⟨0, h03⟩)) v).isSome ↔
      v ∈ W ∧ v ∉ W.take 1 := by
    intro v
    rw [nearLookup_erase]
    by_cases hv : v = W.get ⟨0, h03⟩
    · rw [if_pos hv]
      simp only [Option.isSome_none, Bool.false_eq_true, false_iff, not_and, not_not]
      intro hvW
      rw [htake1 v]
      exact hv
    · rw [if_neg hv, buildNear_isSome, hmem]
      constructor
      · intro hvW
        exact ⟨hvW, fun hmem1 => hv ((htake1 v).mp hmem1)⟩
      · exact fun h => h.1
  have hval2 : ∀ (i : ℕ) (hi : i < W.length), 1 ≤ i →
      ∃ l, nearLookup (nearErase (buildNear es) (W.get ⟨0, h03⟩)) (W.get ⟨i, hi⟩) =
          some l ∧
        l ~ [W.get ⟨(i + 1) % W.length, Nat.mod_lt _ (by omega)⟩,
             W.get ⟨(i + W.length - 1) % W.length, Nat.mod_lt _ (by omega)⟩] := by
    intro i hi hik
    have hne : ¬W.get ⟨i, hi⟩ = W.get ⟨0, h03⟩ := by
      intro h
      have h2 := hW.get_inj_iff.mp h
      have h3 : i = 0 := congrArg Fin.val h2
      omega
    have hpne : partners es (W.get ⟨i, hi⟩) ≠ [] := by
      rw [hmem]
      exact List.get_mem W i hi
    rw [nearLookup_erase, if_neg hne, buildNear_lookup, if_pos hpne]
    exact ⟨partners es (W.get ⟨i, hi⟩), rfl, hnbr i hi⟩
  rw [hlen0, ← take_two_reverse W h03 h13]
  exact walk_spec W hW hn W.length 2 _ (by omega) (by omega) (by omega)
    hknd2 hlen2 hdom2 hval2

/-- C3: for every valid simple cycle `c` in path form (length at least 3, no
repeated vertices), decoding the canonical edge list of `c` succeeds and
returns `c` up to rotation and direction: `edgesToPath (pathToEdges c)` is a
rotation of `c` or a rotation of `c.reverse`. -/
theorem c3_edgesToPath_roundtrip (g : Graph V) (c : List V)
    (hnd : c.Nodup) (hlen : 3 ≤ c.length) :
    ∃ (k : ℕ) (W : List V),
      g.edgesToPath (g.pathToEdges c) = some W ∧
      (W = c.rotate k ∨ W = c.reverse.rotate k) := by
  have hn0 : 0 < c.length := by omega
  obtain ⟨e0, tl, hes⟩ : ∃ e0 tl, g.pathToEdges c = e0 :: tl := by
    cases hp : g.pathToEdges c with
    | nil =>
      exfalso
      have hl := pathToEdges_length g c
      rw [hp] at hl
      simp at hl
      omega
    | cons a b => exact ⟨a, b, rfl⟩
  have he0 : e0 ∈ g.pathToEdges c := by
    rw [hes]
    exact List.mem_cons_self _ _
  have hunf : g.edgesToPath (g.pathToEdges c) =
      walk ((buildNear (g.pathToEdges c)).length + 1) (buildNear (g.pathToEdges c))
        [(g.pathToEdges c).foldl (fun m e => min (min m e.1) e.2) e0.1] := by
    rw [hes]
    rfl
  have hmv : (g.pathToEdges c).foldl (fun m e => min (min m e.1) e.2) e0.1 ∈ c :=
    foldl_min_mem _ c (pathToEdges_endpoints g c) e0.1 (pathToEdges_endpoints g c e0 he0).1
  obtain ⟨⟨m, hm⟩, hmg⟩ := List.mem_iff_get.mp hmv
  have hnbrC : NbrProp (g.pathToEdges c) c := nbrProp_pathToEdges g c hnd (by omega)
  have hprt := hnbrC m hm
  have hmem : ∀ v, partners (g.pathToEdges c) v ≠ [] ↔ v ∈ c := by
    intro v
    constructor
    · intro h
      obtain ⟨e, he, hor⟩ := partners_ne_nil_mem _ v h
      obtain ⟨h1, h2⟩ := pathToEdges_endpoints g c e he
      rcases hor with h3 | h3
      · rw [← h3]
        exact h1
      · rw [← h3]
        exact h2
    · intro hv
      obtain ⟨⟨i, hi⟩, hig⟩ := List.mem_iff_get.mp hv
      have hp := hnbrC i hi
      rw [hig] at hp
      intro hnil
      rw [hnil] at hp
      have h4 := hp.length_eq
      simp at h4
  rcases perm_pair _ _ _ hprt with hcase | hcase
  · -- the first recorded neighbor of the minimum vertex is its cyclic
    -- successor: the walk follows the original orientation
    refine ⟨m, c.rotate m, ?_, Or.inl rfl⟩
    have hWnd : (c.rotate m).Nodup := List.nodup_rotate.mpr hnd
    have hWlr : (c.rotate m).length = c.length := List.length_rotate c m
    have hWlen : 3 ≤ (c.rotate m).length := by omega
    have hmemW : ∀ v, partners (g.pathToEdges c) v ≠ [] ↔ v ∈ c.rotate m := by
      intro v
      rw [hmem v]
      exact (List.mem_rotate).symm
    have hnbrW : NbrProp (g.pathToEdges c) (c.rotate m) := nbrProp_rotate _ c m hnbrC
    have h0W : 0 < (c.rotate m).length := by omega
    have h1W : 1 < (c.rotate m).length := by omega
    have hlW : (c.rotate m).length - 1 < (c.rotate m).length := by omega
    have hW0 : (c.rotate m).get ⟨0, h0W⟩ = c.get ⟨m, hm⟩ := by
      refine (get_rotate c m 0 hn0 h0W).trans (get_idx_congr2 c _ _ ?_)
      rw [Nat.zero_add, Nat.mod_eq_of_lt hm]
    have hW1 : (c.rotate m).get ⟨1, h1W⟩ =
        c.get ⟨(m + 1) % c.length, Nat.mod_lt _ hn0⟩ := by
      refine (get_rotate c m 1 (by omega) h1W).trans (get_idx_congr2 c _ _ ?_)
      rw [Nat.add_comm]
    have hWl : (c.rotate m).get ⟨(c.rotate m).length - 1, hlW⟩ =
        c.get ⟨(m + c.length - 1) % c.length, Nat.mod_lt _ hn0⟩ := by
      have h1 : (c.rotate m).get ⟨(c.rotate m).length - 1, hlW⟩ =
          (c.rotate m).get ⟨c.length - 1, by omega⟩ :=
        get_idx_congr2 _ _ _ (by omega)
      refine h1.trans ((get_rotate c m (c.length - 1) (by omega) (by omega)).trans
        (get_idx_congr2 c _ _ ?_))
      rw [show c.length - 1 + m = m + c.length - 1 from by omega]
    have hhead : partners (g.pathToEdges c) ((c.rotate m).get ⟨0, by omega⟩) =
        [(c.rotate m).get ⟨1, by omega⟩,
         (c.rotate m).get ⟨(c.rotate m).length - 1, by omega⟩] := by
      rw [hW0, hW1, hWl]
      exact hcase
    have hws := edgesToPath_walk_spec (g.pathToEdges c) (c.rotate m) hWnd hWlen
      hmemW hnbrW hhead
    rw [hunf]
    have hW0mv : (c.rotate m).get ⟨0, by omega⟩ =
        (g.pathToEdges c).foldl (fun m e => min (min m e.1) e.2) e0.1 := hW0.trans hmg
    rw [← hW0mv]
    exact hws
  · -- the first recorded neighbor of the minimum vertex is its cyclic
    -- predecessor: the walk follows the reversed orientation
    refine ⟨c.length - 1 - m, c.reverse.rotate (c.length - 1 - m), ?_, Or.inr rfl⟩
    have hWnd : (c.reverse.rotate (c.length - 1 - m)).Nodup :=
      List.nodup_rotate.mpr (List.nodup_reverse.mpr hnd)
    have hWlr : (c.reverse.rotate (c.length - 1 - m)).length = c.length := by
      rw [List.length_rotate, List.length_reverse]
    have hWlen : 3 ≤ (c.reverse.rotate (c.length - 1 - m)).length := by omega
    have hmemW : ∀ v, partners (g.pathToEdges c) v ≠ [] ↔
        v ∈ c.reverse.rotate (c.length - 1 - m) := by
      intro v
      rw [hmem v, List.mem_rotate, List.mem_reverse]
    have hnbrW : NbrProp (g.pathToEdges c) (c.reverse.rotate (c.length - 1 - m)) :=
      nbrProp_rotate _ c.reverse (c.length - 1 - m)
        (nbrProp_reverse _ c (by omega) hnbrC)
    have h0W : 0 < (c.reverse.rotate (c.length - 1 - m)).length := by omega
    have h1W : 1 < (c.reverse.rotate (c.length - 1 - m)).length := by omega
    have hlW : (c.reverse.rotate (c.length - 1 - m)).length - 1 <
        (c.reverse.rotate (c.length - 1 - m)).length := by omega
    have hW0 : (c.reverse.rotate (c.length - 1 - m)).get ⟨0, h0W⟩ = c.get ⟨m, hm⟩ := by
      refine (get_reverse_rotate c (c.length - 1 - m) 0 hn0 h0W (by omega)).trans
        (get_idx_congr2 c _ _ ?_)
      rw [Nat.zero_add, Nat.mod_eq_of_lt (by omega)]
      omega
    have hW1 : (c.reverse.rotate (c.length - 1 - m)).get ⟨1, h1W⟩ =
        c.get ⟨(m + c.length - 1) % c.length, Nat.mod_lt _ hn0⟩ := by
      refine (get_reverse_rotate c (c.length - 1 - m) 1 (by omega) h1W (by omega)).trans
        (get_idx_congr2 c _ _ ?_)
      by_cases hm0 : m = 0
      · subst hm0
        rw [show 1 + (c.length - 1 - 0) = c.length from by omega, Nat.mod_self,
          show 0 + c.length - 1 = c.length - 1 from by omega,
          Nat.mod_eq_of_lt (by omega)]
        omega
      · rw [show 1 + (c.length - 1 - m) = c.length - m from by omega,
          Nat.mod_eq_of_lt (show c.length - m < c.length from by omega),
          show m + c.length - 1 = m - 1 + c.length from by omega,
          Nat.add_mod_right, Nat.mod_eq_of_lt (by omega)]
        omega
    have hWl : (c.reverse.rotate (c.length - 1 - m)).get
        ⟨(c.reverse.rotate (c.length - 1 - m)).length - 1, hlW⟩ =
        c.get ⟨(m + 1) % c.length, Nat.mod_lt _ hn0⟩ := by
      have h1 : (c.reverse.rotate (c.length - 1 - m)).get
          ⟨(c.reverse.rotate (c.length - 1 - m)).length - 1, hlW⟩ =
          (c.reverse.rotate (c.length - 1 - m)).get ⟨c.length - 1, by omega⟩ :=
        get_idx_congr2 _ _ _ (by omega)
      refine h1.trans ((get_reverse_rotate c (c.length - 1 - m) (c.length - 1)
        (by omega) (by omega) (by omega)).trans (get_idx_congr2 c _ _ ?_))
      by_cases hme : m = c.length - 1
      · subst hme
        rw [show c.length - 1 + (c.length - 1 - (c.length - 1)) = c.length - 1 from
            by omega,
          Nat.mod_eq_of_lt (by omega),
          show c.length - 1 + 1 = c.length from by omega, Nat.mod_self]
        omega
      · rw [show c.length - 1 + (c.length - 1 - m) = c.length - 2 - m + c.length from
            by omega,
          Nat.add_mod_right, Nat.mod_eq_of_lt (by omega),
          Nat.mod_eq_of_lt (show m + 1 < c.length from by omega)]
        omega
    have hhead : partners (g.pathToEdges c)
        ((c.reverse.rotate (c.length - 1 - m)).get ⟨0, by omega⟩) =
        [(c.reverse.rotate (c.length - 1 - m)).get ⟨1, by omega⟩,
         (c.reverse.rotate (c.length - 1 - m)).get
           ⟨(c.reverse.rotate (c.length - 1 - m)).length - 1, by omega⟩] := by
      rw [hW0, hW1, hWl]
      exact hcase
    have hws := edgesToPath_walk_spec (g.pathToEdges c) (c.reverse.rotate (c.length - 1 - m))
      hWnd hWlen hmemW hnbrW hhead
    rw [hunf]
    have hW0mv : (c.reverse.rotate (c.length - 1 - m)).get ⟨0, by omega⟩ =
        (g.pathToEdges c).foldl (fun m e => min (min m e.1) e.2) e0.1 := hW0.trans hmg
    rw [← hW0mv]
    exact hws

theorem c3_witness : ∃ (k : ℕ) (W : List ℕ),
    emptyGraphEx.edgesToPath (emptyGraphEx.pathToEdges [1, 2, 3]) = some W ∧
    (W = [1, 2, 3].rotate k ∨ W = [1, 2, 3].reverse.rotate k) :=
  c3_edgesToPath_roundtrip emptyGraphEx [1, 2, 3] (by decide) (by decide)

end FindFrustration
